import Mathlib

/-!
Verification of the streaming transcoding engine of the anthropic-proxy
repository.  The engine's JavaScript/TypeScript sources are shallowly
embedded: JS strings become `List Char`, mutable component objects become
explicit state records, SSE writes become a trace of `Event` values and
thrown exceptions become an `Option PErr` field carried by each step result.
The embedded components are `ContentProcessor`, `StreamStateManager`,
`BufferManager`, `StreamingResponseHandler` and the reader loop of
`handleStreamingResponse`.
-/

namespace Proxy

/-- JS strings are modelled as lists of characters. -/
abbrev Str := List Char

/-- Characters matched by the JS whitespace class used by `trim` and the
single application of the regular expression in `replace` (ASCII part). -/
def jsWS (c : Char) : Bool :=
  c == ' ' || c == '\t' || c == '\n' || c == '\r' || c == '\x0b' || c == '\x0c'

/-- Remove leading JS whitespace. -/
def trimLeft (s : Str) : Str := s.dropWhile jsWS

/-- Remove trailing JS whitespace. -/
def trimRight (s : Str) : Str := (s.reverse.dropWhile jsWS).reverse

/-- JS `String.prototype.trim`. -/
def trimStr (s : Str) : Str := trimRight (trimLeft s)

/-- JS `String.prototype.split` with a single-character separator: the
result is never empty and keeps empty segments, e.g. splitting `"a\n"` on
`'\n'` yields `["a", ""]`. -/
def splitOnCh (c : Char) : Str → List Str
  | [] => [[]]
  | a :: as =>
    if a = c then [] :: splitOnCh c as
    else
      match splitOnCh c as with
      | [] => [[a]]
      | l :: ls => (a :: l) :: ls

/-- Join segments with the separator character: left inverse of `splitOnCh`. -/
def joinCh (c : Char) : List Str → Str
  | [] => []
  | [x] => x
  | x :: xs => x ++ c :: joinCh c xs

/-- Number of events in a trace satisfying a predicate. -/
def countP (p : α → Bool) (l : List α) : Nat := (l.filter p).length

/-! ## Wire events

Each SSE frame written by `SSEMessageBuilder` (plus the two transport-level
side effects `writeHead` and `reply.raw.end()`) becomes one `Event` value. -/

/-- Stop reasons of the outgoing protocol (`ContentProcessor.getStopReason`). -/
inductive StopReason where
  | endTurn
  | toolUse
deriving DecidableEq, Repr

/-- One outgoing wire event or transport side effect. -/
inductive Event where
  | headersWritten (status : Nat) (hdrs : List (Str × Str))
  | messageStart
  | ping
  | blockStartText (index : Nat)
  | blockStartTool (index : Nat) (id name : Str)
  | textDelta (index : Nat) (text : Str)
  | thinkingDelta (index : Nat) (thinking : Str)
  | inputJsonDelta (index : Nat) (json : Str)
  | blockStop (index : Nat)
  | messageDelta (stopReason : StopReason) (outputTokens : Nat)
  | messageStop
  | transportEnd
deriving DecidableEq, Repr

/-! ## Backend payload shapes (§ `choices[0].delta` of a parsed payload) -/

/-- `function` member of a streamed tool call fragment. -/
structure ToolFunction where
  name : Str
  arguments : Option Str
deriving DecidableEq, Repr

/-- One element of a `tool_calls` array. -/
structure ToolCall where
  index : Nat
  id : Str
  function : ToolFunction
deriving DecidableEq, Repr

/-- A decoded `choices[0].delta` object. -/
structure Delta where
  tool_calls : Option (List ToolCall)
  content : Option Str
  reasoning : Option Str
deriving DecidableEq, Repr

/-- A backend `usage` object. -/
structure Usage where
  prompt_tokens : Option Nat
  completion_tokens : Option Nat
deriving DecidableEq, Repr

/-- A backend `error` object. -/
structure ErrObj where
  message : Str
deriving DecidableEq, Repr

/-- One element of the `choices` array. -/
structure Choice where
  delta : Option Delta
deriving DecidableEq, Repr

/-- A successfully JSON-parsed data payload. -/
structure ParsedPayload where
  error : Option ErrObj
  usage : Option Usage
  choices : Option (List Choice)
deriving DecidableEq, Repr

/-- `toolCall.function.arguments || ""` (absent arguments become empty). -/
def argOf (tc : ToolCall) : Str := tc.function.arguments.getD []

/-! ## ContentProcessor (src/handlers/streaming/ContentProcessor.js) -/

/-- Mutable fields of a `ContentProcessor` instance.  The JS object
`toolCallAccumulators` (numeric keys) is an association list kept in
ascending key order, matching the integer-key iteration order of JS
objects used by `Object.keys`. -/
structure CPState where
  textBlockStarted : Bool
  encounteredToolCall : Bool
  toolCallAccumulators : List (Nat × Str)
  accumulatedContent : Str
  accumulatedReasoning : Str
deriving DecidableEq, Repr

/-- A freshly constructed `ContentProcessor`. -/
def freshCP : CPState := ⟨false, false, [], [], []⟩

/-- `this.toolCallAccumulators[idx]` (`none` models `undefined`). -/
def lookupTool : List (Nat × Str) → Nat → Option Str
  | [], _ => none
  | (k, v) :: ts, i => if i = k then some v else lookupTool ts i

/-- `this.toolCallAccumulators[idx] = v`: update in place, or insert a new
integer key at its ascending position. -/
def setTool : List (Nat × Str) → Nat → Str → List (Nat × Str)
  | [], i, v => [(i, v)]
  | (k, w) :: ts, i, v =>
    if i = k then (i, v) :: ts
    else if i < k then (i, v) :: (k, w) :: ts
    else (k, w) :: setTool ts i v

/-- `ContentProcessor.processToolCall`. -/
def processToolCall (s : CPState) (tc : ToolCall) : CPState × List Event :=
  let s := { s with encounteredToolCall := true }
  let seeded :=
    match lookupTool s.toolCallAccumulators tc.index with
    | none =>
      ({ s with toolCallAccumulators := setTool s.toolCallAccumulators tc.index [] },
       [Event.blockStartTool tc.index tc.id tc.function.name])
    | some _ => (s, ([] : List Event))
  let s1 := seeded.1
  let newArgs := argOf tc
  let oldArgs := (lookupTool s1.toolCallAccumulators tc.index).getD []
  if oldArgs.length < newArgs.length then
    ({ s1 with toolCallAccumulators := setTool s1.toolCallAccumulators tc.index newArgs },
     seeded.2 ++ [Event.inputJsonDelta tc.index (newArgs.drop oldArgs.length)])
  else (s1, seeded.2)

/-- `ContentProcessor.processContent`. -/
def processContent (s : CPState) (content : Str) : CPState × List Event :=
  let opened :=
    if s.textBlockStarted then (s, ([] : List Event))
    else ({ s with textBlockStarted := true }, [Event.blockStartText 0])
  let s1 := opened.1
  ({ s1 with accumulatedContent := s1.accumulatedContent ++ content },
   opened.2 ++ [Event.textDelta 0 content])

/-- `ContentProcessor.processReasoning`. -/
def processReasoning (s : CPState) (reasoning : Str) : CPState × List Event :=
  let opened :=
    if s.textBlockStarted then (s, ([] : List Event))
    else ({ s with textBlockStarted := true }, [Event.blockStartText 0])
  let s1 := opened.1
  ({ s1 with accumulatedReasoning := s1.accumulatedReasoning ++ reasoning },
   opened.2 ++ [Event.thinkingDelta 0 reasoning])

/-- `delta.tool_calls.forEach(toolCall => this.processToolCall(toolCall))`. -/
def runToolCalls (s : CPState) : List ToolCall → CPState × List Event
  | [] => (s, [])
  | tc :: tcs =>
    let r := processToolCall s tc
    let r2 := runToolCalls r.1 tcs
    (r2.1, r.2 ++ r2.2)

/-- `ContentProcessor.processDelta`.  JS truthiness decides the branch: an
absent delta is a no-op, a present `tool_calls` array (even empty) wins,
then a non-empty `content` string, then a non-empty `reasoning` string. -/
def processDelta (s : CPState) : Option Delta → CPState × List Event
  | none => (s, [])
  | some d =>
    match d.tool_calls with
    | some tcs => runToolCalls s tcs
    | none =>
      match d.content with
      | some (c :: cs) => processContent s (c :: cs)
      | _ =>
        match d.reasoning with
        | some (r :: rs) => processReasoning s (r :: rs)
        | _ => (s, [])

/-- `ContentProcessor.sendContentBlockStops`. -/
def sendContentBlockStops (s : CPState) : List Event :=
  if s.encounteredToolCall then
    s.toolCallAccumulators.map (fun kv => Event.blockStop kv.1)
  else if s.textBlockStarted then [Event.blockStop 0]
  else []

/-- JS `.split(' ').length` word count; an empty string counts as one word. -/
def wordCount (s : Str) : Nat := (splitOnCh ' ' s).length

/-- `ContentProcessor.calculateOutputTokens`: `usage?.completion_tokens` is
a JS truthiness test, so an absent usage object, an absent field, and a
reported count of `0` all fall through to the word-count estimate. -/
def calculateOutputTokens (s : CPState) (usage : Option Usage) : Nat :=
  match usage with
  | some u =>
    match u.completion_tokens with
    | some n => if n ≠ 0 then n else wordCount s.accumulatedContent + wordCount s.accumulatedReasoning
    | none => wordCount s.accumulatedContent + wordCount s.accumulatedReasoning
  | none => wordCount s.accumulatedContent + wordCount s.accumulatedReasoning

/-- `ContentProcessor.getStopReason`. -/
def getStopReason (s : CPState) : StopReason :=
  if s.encounteredToolCall then StopReason.toolUse else StopReason.endTurn

/-! ## StreamStateManager (src/handlers/streaming/StreamStateManager.js) -/

/-- The `StreamingStates` constants. -/
inductive StreamingState where
  | initializing
  | streaming
  | finalizing
  | completed
  | error
deriving DecidableEq, Repr

/-- Mutable fields of a `StreamStateManager` instance. -/
structure SMState where
  state : StreamingState
  isSucceeded : Bool
deriving DecidableEq, Repr

/-- A freshly constructed `StreamStateManager`. -/
def freshSM : SMState := ⟨StreamingState.initializing, false⟩

/-- `StreamStateManager.startStreaming`: the state change and the returned
boolean. -/
def SMState.startStreaming (s : SMState) : SMState × Bool :=
  if s.isSucceeded then (s, false)
  else ({ state := StreamingState.streaming, isSucceeded := true }, true)

/-- `StreamStateManager.startFinalizing` (unguarded assignment). -/
def SMState.startFinalizing (s : SMState) : SMState :=
  { s with state := StreamingState.finalizing }

/-- `StreamStateManager.complete` (unguarded assignment). -/
def SMState.complete (s : SMState) : SMState :=
  { s with state := StreamingState.completed }

/-- `StreamStateManager.setError` (unguarded assignment). -/
def SMState.setError (s : SMState) : SMState :=
  { s with state := StreamingState.error }

/-- One transition request to the state machine, for reasoning about
request sequences. -/
inductive TransReq where
  | startStreaming
  | startFinalizing
  | complete
  | setError
deriving DecidableEq, Repr

/-- Apply one transition request (discarding `startStreaming`'s result). -/
def applyReq (s : SMState) : TransReq → SMState
  | TransReq.startStreaming => (s.startStreaming).1
  | TransReq.startFinalizing => s.startFinalizing
  | TransReq.complete => s.complete
  | TransReq.setError => s.setError

/-- Apply a sequence of transition requests. -/
def applyReqs (s : SMState) : List TransReq → SMState
  | [] => s
  | t :: ts => applyReqs (applyReq s t) ts

/-! ## BufferManager (src/handlers/streaming/BufferManager.js)

`bufferStartTime`/`Date.now()` cannot be embedded; the result of
`isBufferTimedOut()` is instead supplied by an arbitrary boolean oracle,
quantified over in every theorem that touches the buffering path. -/

/-- Mutable fields of a `BufferManager` instance. -/
structure BMState where
  lineBuffer : Str
  jsonBuffer : Str
  isBuffering : Bool
deriving DecidableEq, Repr

/-- A freshly constructed `BufferManager`. -/
def freshBM : BMState := ⟨[], [], false⟩

/-- `config.maxBufferSize || 50000` with the default configuration. -/
def maxBufferSize : Nat := 50000

/-- `BufferManager.extractCompleteLines`: append the chunk, split on the
line terminator, retain the final fragment, return the complete lines. -/
def BMState.extractCompleteLines (bm : BMState) (newChunk : Str) : BMState × List Str :=
  let parts := splitOnCh '\n' (bm.lineBuffer ++ newChunk)
  ({ bm with lineBuffer := parts.getLastD [] }, parts.dropLast)

/-- `BufferManager.getRemainingLineBuffer`: drain and return the fragment. -/
def BMState.getRemainingLineBuffer (bm : BMState) : BMState × Str :=
  ({ bm with lineBuffer := [] }, bm.lineBuffer)

/-- `BufferManager.startBuffering`. -/
def BMState.startBuffering (bm : BMState) (initialData : Str) : BMState :=
  { bm with jsonBuffer := initialData, isBuffering := true }

/-- `BufferManager.clearBuffer`. -/
def BMState.clearBuffer (bm : BMState) : BMState :=
  { bm with jsonBuffer := [], isBuffering := false }

/-- JS `String.prototype.includes`: does `hay` contain `pat`? -/
def strContains : Str → Str → Bool
  | [], pat => pat.isEmpty
  | a :: as, pat => pat.isPrefixOf (a :: as) || strContains as pat

/-- `BufferManager.isRecoverableJsonError`: substring tests against the
JSON parser's error message. -/
def isRecoverableJsonError (msg : Str) : Bool :=
  strContains msg ("Unterminated string".toList) ||
  strContains msg ("Unexpected end of JSON input".toList) ||
  strContains msg ("Unexpected token".toList)

/-! ## StreamingResponseHandler (src/handlers/streaming/StreamingResponseHandler.js) -/

/-- Mutable fields of a `StreamingResponseHandler` instance (the Fastify
`reply` is represented by the event trace; the logger is effect-free). -/
structure HState where
  stateManager : SMState
  bufferManager : BMState
  contentProcessor : CPState
  usage : Option Usage
deriving DecidableEq, Repr

/-- A freshly constructed `StreamingResponseHandler`. -/
def freshHandler : HState := ⟨freshSM, freshBM, freshCP, none⟩

/-- The headers written by `initializeStream`. -/
def stdHeaders : List (Str × Str) :=
  [("Content-Type".toList, "text/event-stream".toList),
   ("Cache-Control".toList, "no-cache".toList),
   ("Connection".toList, "keep-alive".toList)]

/-- `StreamingResponseHandler.initializeStream`: the headers and the
message-start/ping preamble are emitted only when `startStreaming`
reports that the transition actually occurred. -/
def initializeStream (h : HState) : HState × List Event :=
  let r := h.stateManager.startStreaming
  if r.2 then
    ({ h with stateManager := r.1 },
     [Event.headersWritten 200 stdHeaders, Event.messageStart, Event.ping])
  else ({ h with stateManager := r.1 }, [])

/-- Typed errors thrown by the handler (`ProxyError` construction sites). -/
inductive PErr where
  | streamingError (msg : Str)
  | parseError (raw msg : Str)
  | bufferTimeout
  | bufferOverflow
  | bufferedParseError (msg : Str)
deriving DecidableEq, Repr

/-- Result of `processStreamData`: next state, emitted events, and the
thrown `ProxyError` if any. -/
structure DataRes where
  h : HState
  evs : List Event
  err : Option PErr
deriving Repr

/-- `StreamingResponseHandler.processStreamData`. -/
def processStreamData (h : HState) (p : ParsedPayload) : DataRes :=
  match p.error with
  | some e =>
    ⟨{ h with stateManager := h.stateManager.setError }, [],
     some (PErr.streamingError e.message)⟩
  | none =>
    let ini := initializeStream h
    let h1 := ini.1
    let h2 := match p.usage with
              | some u => { h1 with usage := some u }
              | none => h1
    let d := (p.choices.bind List.head?).bind Choice.delta
    let pr := processDelta h2.contentProcessor d
    ⟨{ h2 with contentProcessor := pr.1 }, ini.2 ++ pr.2, none⟩

/-- `StreamingResponseHandler.finalizeStream`. -/
def finalizeStream (h : HState) : HState × List Event :=
  let sm1 := h.stateManager.startFinalizing
  let stops := sendContentBlockStops h.contentProcessor
  let outputTokens := calculateOutputTokens h.contentProcessor h.usage
  let reason := getStopReason h.contentProcessor
  ({ h with stateManager := sm1.complete },
   stops ++ [Event.messageDelta reason outputTokens, Event.messageStop, Event.transportEnd])

/-- Zero-width-lookahead split before every occurrence of `data:` (the
regular expression `(?=data:\s*)` of `splitDataEntries`); the match at
position 0 produces no cut, per the ECMAScript `split` algorithm. -/
def splitFromData : Str → Str → List Str
  | cur, [] => [cur]
  | cur, c :: rs =>
    if cur ≠ [] ∧ ("data:".toList).isPrefixOf (c :: rs) then
      cur :: splitFromData [c] rs
    else splitFromData (cur ++ [c]) rs

/-- `StreamingResponseHandler.splitDataEntries`. -/
def splitDataEntries (line : Str) : List Str :=
  let trimmed := trimStr line
  if trimmed = [] then []
  else (splitFromData [] trimmed).filter
    (fun part => ("data:".toList).isPrefixOf (trimStr part))

/-- The payload of a `data:` entry: `trimmed.replace(/^data:\s*/, '')`
under the assumption that `trimmed` starts with `data:`. -/
def dataStrOf (entry : Str) : Str := ((trimStr entry).drop 5).dropWhile jsWS

/-- Result of one entry/line/loop processing step: next state, emitted
events, oracle position, the `shouldContinue` result, and the thrown
error if any. -/
structure StepRes where
  h : HState
  evs : List Event
  n : Nat
  cont : Bool
  err : Option PErr
deriving Repr

/-- `StreamingResponseHandler.processDataEntry`.  `parse` stands for
`JSON.parse` (environment), `oracle n` for the n-th consultation of
`isBufferTimedOut()`. -/
def processDataEntry (parse : Str → Except Str ParsedPayload) (oracle : Nat → Bool)
    (h : HState) (n : Nat) (entry : Str) : StepRes :=
  let trimmed := trimStr entry
  if ¬ (("data:".toList).isPrefixOf trimmed) then ⟨h, [], n + 1, true, none⟩
  else
    let dataStr := (trimmed.drop 5).dropWhile jsWS
    if dataStr = "[DONE]".toList then
      let fin := finalizeStream h
      ⟨fin.1, fin.2, n + 1, false, none⟩
    else if h.bufferManager.isBuffering ∧ oracle n then
      ⟨{ h with stateManager := h.stateManager.setError }, [], n + 1, true,
       some PErr.bufferTimeout⟩
    else if h.bufferManager.isBuffering then
      let jb := h.bufferManager.jsonBuffer ++ dataStr
      let hb := { h with bufferManager := { h.bufferManager with jsonBuffer := jb } }
      if maxBufferSize < jb.length then
        ⟨{ hb with stateManager := hb.stateManager.setError }, [], n + 1, true,
         some PErr.bufferOverflow⟩
      else
        -- processBufferedJson(this.bufferManager.jsonBuffer)
        match parse jb with
        | Except.ok p =>
          let r := processStreamData hb p
          match r.err with
          | some (PErr.streamingError m) =>
            ⟨{ r.h with stateManager := r.h.stateManager.setError }, r.evs, n + 1, true,
             some (PErr.bufferedParseError m)⟩
          | some e => ⟨r.h, r.evs, n + 1, true, some e⟩
          | none => ⟨{ r.h with bufferManager := r.h.bufferManager.clearBuffer }, r.evs,
                     n + 1, true, none⟩
        | Except.error m =>
          ⟨{ hb with stateManager := hb.stateManager.setError }, [], n + 1, true,
           some (PErr.bufferedParseError m)⟩
    else
      match parse dataStr with
      | Except.ok p =>
        let r := processStreamData h p
        ⟨r.h, r.evs, n + 1, true, r.err⟩
      | Except.error m =>
        if isRecoverableJsonError m then
          ⟨{ h with bufferManager := h.bufferManager.startBuffering dataStr }, [],
           n + 1, true, none⟩
        else
          ⟨{ h with stateManager := h.stateManager.setError }, [], n + 1, true,
           some (PErr.parseError dataStr m)⟩

/-- The `for (const dataEntry of dataEntries)` loop of `processLine`:
stop at the first thrown error or `shouldContinue === false`. -/
def processEntries (parse : Str → Except Str ParsedPayload) (oracle : Nat → Bool)
    (h : HState) (n : Nat) : List Str → StepRes
  | [] => ⟨h, [], n, true, none⟩
  | e :: es =>
    let r := processDataEntry parse oracle h n e
    match r.err with
    | some _ => r
    | none =>
      if r.cont then
        let r2 := processEntries parse oracle r.h r.n es
        ⟨r2.h, r.evs ++ r2.evs, r2.n, r2.cont, r2.err⟩
      else ⟨r.h, r.evs, r.n, false, none⟩

/-- `StreamingResponseHandler.processLine`. -/
def processLine (parse : Str → Except Str ParsedPayload) (oracle : Nat → Bool)
    (h : HState) (n : Nat) (line : Str) : StepRes :=
  let trimmed := trimStr line
  if trimmed = [] then ⟨h, [], n, true, none⟩
  else
    let entries := splitDataEntries trimmed
    if entries = [] then ⟨h, [], n, true, none⟩
    else processEntries parse oracle h n entries

/-- The `for (const line of completeLines)` loop of the orchestrator. -/
def processLines (parse : Str → Except Str ParsedPayload) (oracle : Nat → Bool)
    (h : HState) (n : Nat) : List Str → StepRes
  | [] => ⟨h, [], n, true, none⟩
  | l :: ls =>
    let r := processLine parse oracle h n l
    match r.err with
    | some _ => r
    | none =>
      if r.cont then
        let r2 := processLines parse oracle r.h r.n ls
        ⟨r2.h, r.evs ++ r2.evs, r2.n, r2.cont, r2.err⟩
      else ⟨r.h, r.evs, r.n, false, none⟩

/-- The `while (!done && !handler.stateManager.isCompleted())` reader loop
of `handleStreamingResponse` (src/handlers/streamingHandler.js entry point),
reading one chunk per iteration. -/
def loopChunks (parse : Str → Except Str ParsedPayload) (oracle : Nat → Bool)
    (h : HState) (n : Nat) : List Str → StepRes
  | [] => ⟨h, [], n, true, none⟩
  | c :: cs =>
    if h.stateManager.state = StreamingState.completed then ⟨h, [], n, true, none⟩
    else
      let ex := h.bufferManager.extractCompleteLines c
      let h1 := { h with bufferManager := ex.1 }
      let r := processLines parse oracle h1 n ex.2
      match r.err with
      | some _ => r
      | none =>
        if r.cont then
          let r2 := loopChunks parse oracle r.h r.n cs
          ⟨r2.h, r.evs ++ r2.evs, r2.n, r2.cont, r2.err⟩
        else ⟨r.h, r.evs, r.n, false, none⟩

/-- Final outcome of one streaming request: final handler state, the full
event trace, and the propagated error if the handler threw. -/
structure RunRes where
  h : HState
  evs : List Event
  err : Option PErr
deriving Repr

/-- `handleStreamingResponse`: the reader loop, then
`processRemainingLineBuffer`, then the final
`if (!handler.stateManager.isCompleted()) reply.raw.end()`.  A thrown
`ProxyError` propagates, skipping the remaining steps. -/
def runStreaming (parse : Str → Except Str ParsedPayload) (oracle : Nat → Bool)
    (chunks : List Str) : RunRes :=
  let L := loopChunks parse oracle freshHandler 0 chunks
  match L.err with
  | some e => ⟨L.h, L.evs, some e⟩
  | none =>
    let drained := L.h.bufferManager.getRemainingLineBuffer
    let h1 := { L.h with bufferManager := drained.1 }
    let remaining := drained.2
    let r :=
      if trimStr remaining = [] then (⟨h1, [], L.n, true, none⟩ : StepRes)
      else processLine parse oracle h1 L.n remaining
    match r.err with
    | some e => ⟨r.h, L.evs ++ r.evs, some e⟩
    | none =>
      if r.h.stateManager.state = StreamingState.completed then ⟨r.h, L.evs ++ r.evs, none⟩
      else ⟨r.h, L.evs ++ r.evs ++ [Event.transportEnd], none⟩

/-! ## Derived runners and trace observers used by the claims -/

/-- Feed a sequence of decoded deltas to one `ContentProcessor`
(one `processDelta` call per delta, as `processStreamData` does). -/
def runDeltas (s : CPState) : List Delta → CPState × List Event
  | [] => (s, [])
  | d :: ds =>
    let r := processDelta s (some d)
    let r2 := runDeltas r.1 ds
    (r2.1, r.2 ++ r2.2)

/-- The content-block events of a request: all deltas, then the stop
events produced at finalization. -/
def requestBlockEvents (ds : List Delta) : List Event :=
  let r := runDeltas freshCP ds
  r.2 ++ sendContentBlockStops r.1

/-- Feed tool call fragments one at a time, keeping the events emitted for
each fragment as a separate batch. -/
def runToolCallsBatched (s : CPState) : List ToolCall → CPState × List (List Event)
  | [] => (s, [])
  | tc :: tcs =>
    let r := processToolCall s tc
    let r2 := runToolCallsBatched r.1 tcs
    (r2.1, r.2 :: r2.2)

/-- Iterate `initializeStream` (as one call per incoming decoded delta
does), collecting all emitted events. -/
def iterInit : Nat → HState → HState × List Event
  | 0, h => (h, [])
  | n + 1, h =>
    let r := initializeStream h
    let r2 := iterInit n r.1
    (r2.1, r.2 ++ r2.2)

/-- Feed a sequence of chunks to one `BufferManager`, collecting the lines
returned by each `extractCompleteLines` call. -/
def feedChunks (bm : BMState) : List Str → BMState × List (List Str)
  | [] => (bm, [])
  | c :: cs =>
    let r := bm.extractCompleteLines c
    let r2 := feedChunks r.1 cs
    (r2.1, r.2 :: r2.2)

/-- Concatenation of a group of line lists with the `'\n'` terminator
reinstated after every line. -/
def joinLinesNl (lss : List (List Str)) : Str :=
  ((lss.flatten).map (fun l => l ++ ['\n'])).flatten

/-- Is this event a `content_block_start` for block index `i`? -/
def isStartAt (i : Nat) : Event → Bool
  | Event.blockStartText j => j == i
  | Event.blockStartTool j _ _ => j == i
  | _ => false

/-- Is this event a `content_block_stop` for block index `i`? -/
def isStopAt (i : Nat) : Event → Bool
  | Event.blockStop j => j == i
  | _ => false

/-- Is this event a `message_stop`? -/
def isMessageStopEv : Event → Bool
  | Event.messageStop => true
  | _ => false

/-- Is this event the transport-close side effect? -/
def isTransportEndEv : Event → Bool
  | Event.transportEnd => true
  | _ => false

/-- Is this event a `text_delta` frame? -/
def isTextDeltaEv : Event → Bool
  | Event.textDelta _ _ => true
  | _ => false

/-- Is this event a `thinking_delta` frame? -/
def isThinkingDeltaEv : Event → Bool
  | Event.thinkingDelta _ _ => true
  | _ => false

/-- Is this event a tool-use block start or an `input_json_delta` frame? -/
def isToolEv : Event → Bool
  | Event.blockStartTool _ _ _ => true
  | Event.inputJsonDelta _ _ => true
  | _ => false

/-- Number of `message_stop` frames in a trace. -/
def countMessageStop (evs : List Event) : Nat := countP isMessageStopEv evs

/-- Number of transport closes in a trace. -/
def countTransportEnd (evs : List Event) : Nat := countP isTransportEndEv evs

/-- The cumulative argument strings reported for block index `i`, in
arrival order. -/
def argsAt (i : Nat) (tcs : List ToolCall) : List Str :=
  (tcs.filter (fun tc => tc.index == i)).map argOf

/-- `cumulB prev l`: every string of `l` extends its predecessor
(`prev` seeding the chain). -/
def cumulB : Str → List Str → Bool
  | _, [] => true
  | prev, a :: rest => prev.isPrefixOf a && cumulB a rest

/-- The payloads of the `input_json_delta` frames for index `i`, in order. -/
def jsonDeltasAt (i : Nat) (evs : List Event) : List Str :=
  evs.filterMap (fun e =>
    match e with
    | Event.inputJsonDelta j d => if j == i then some d else none
    | _ => none)

/-- Concatenation of all `input_json_delta` payloads for index `i`. -/
def concatAt (i : Nat) (evs : List Event) : Str := (jsonDeltasAt i evs).flatten

/-- Number of block-open indicators the processor state holds for index
`i`: the shared text block (index 0) and a tool-call accumulator entry. -/
def startCount (s : CPState) (i : Nat) : Nat :=
  (if s.textBlockStarted = true ∧ i = 0 then 1 else 0) +
  (if (lookupTool s.toolCallAccumulators i).isSome then 1 else 0)

/-- Keys of the accumulator map are strictly ascending (the integer-key
order of a JS object). -/
def toolKeysSorted (ts : List (Nat × Str)) : Prop :=
  List.Pairwise (· < ·) (ts.map Prod.fst)

/-- Reachability invariant of a `ContentProcessor` state: ascending
accumulator keys, and no accumulators before any tool call was seen. -/
def CPInv (s : CPState) : Prop :=
  toolKeysSorted s.toolCallAccumulators ∧
  (s.encounteredToolCall = false → s.toolCallAccumulators = [])

/-- The three truncation signatures as the specification words them —
"unterminated string, unexpected end of input, unexpected token at end" —
for comparison with the source's `isRecoverableJsonError`.  The third
signature accepts an unexpected-token failure only when the parser
reports the token at the end of the failing payload, i.e. at the
payload's last index. -/
def claimTruncationSignature (payload msg : Str) : Bool :=
  strContains msg ("Unterminated string".toList) ||
  strContains msg ("Unexpected end of JSON input".toList) ||
  (strContains msg ("Unexpected token".toList) &&
   strContains msg ("at position ".toList ++ (Nat.repr (payload.length - 1)).toList))

/-- A `JSON.parse` stand-in whose failures always carry a truncation-shaped
message (used by concrete witnesses). -/
def parseTruncated : Str → Except Str ParsedPayload :=
  fun _ => Except.error ("Unterminated string in JSON at position 5".toList)

/-- A `JSON.parse` stand-in reproducing the failure on a complete but
malformed payload, e.g. an HTML error page: the unexpected token is
reported at position 0, not at the end (used by the C5 counterexample). -/
def parseTokenAtStart : Str → Except Str ParsedPayload :=
  fun _ => Except.error ("Unexpected token < in JSON at position 0".toList)

/-- A `JSON.parse` stand-in whose failures carry a non-truncation message
(used by concrete witnesses). -/
def parseMalformed : Str → Except Str ParsedPayload :=
  fun _ => Except.error ("boom".toList)

/-- A timeout oracle under which `isBufferTimedOut()` never fires. -/
def oracleNever : Nat → Bool := fun _ => false

/-! ## Basic lemmas about the string utilities -/

theorem splitOnCh_ne_nil (c : Char) (s : Str) : splitOnCh c s ≠ [] := by
  cases s with
  | nil => simp [splitOnCh]
  | cons a as =>
    simp only [splitOnCh]
    split
    · simp
    · cases h : splitOnCh c as <;> simp

theorem joinCh_splitOnCh (c : Char) (s : Str) : joinCh c (splitOnCh c s) = s := by
  induction s with
  | nil => rfl
  | cons a as ih =>
    simp only [splitOnCh]
    split
    · rename_i hac
      subst hac
      cases h : splitOnCh a as with
      | nil => exact absurd h (splitOnCh_ne_nil a as)
      | cons l ls =>
        rw [h] at ih
        simp [joinCh, ← ih]
    · cases h : splitOnCh c as with
      | nil => exact absurd h (splitOnCh_ne_nil c as)
      | cons l ls =>
        rw [h] at ih
        cases ls with
        | nil => simp [joinCh] at ih ⊢; exact ih
        | cons l2 ls2 => simp [joinCh] at ih ⊢; rw [ih]

/-- Decomposition of `joinCh` into the complete segments (each followed by
the separator) and the final segment. -/
theorem joinCh_eq_dropLast_append (c : Char) (parts : List Str) (h : parts ≠ []) :
    ((parts.dropLast.map (fun l => l ++ [c])).flatten) ++ parts.getLastD [] = joinCh c parts := by
  induction parts with
  | nil => exact absurd rfl h
  | cons x xs ih =>
    cases xs with
    | nil => simp [joinCh]
    | cons y ys =>
      have hne : y :: ys ≠ ([] : List Str) := by simp
      have := ih hne
      simp only [List.dropLast_cons_of_ne_nil hne, List.map_cons, List.flatten_cons,
        List.getLastD_cons, joinCh] at this ⊢
      rw [List.append_assoc, this]
      simp

theorem countP_append (p : α → Bool) (l₁ l₂ : List α) :
    countP p (l₁ ++ l₂) = countP p l₁ + countP p l₂ := by
  simp [countP, List.filter_append]

/-! ## Claim C3 -/

/-- Claim C3, counterexample: `Completed` is not terminal.  After a
`complete` request the machine is in `Completed`, yet a subsequent
`startFinalizing` request moves it to `Finalizing`: the transition methods
other than `startStreaming` assign the state unconditionally. -/
theorem claim3_counterexample :
    (applyReqs freshSM [TransReq.complete]).state = StreamingState.completed ∧
    (applyReqs freshSM [TransReq.complete, TransReq.startFinalizing]).state
      = StreamingState.finalizing ∧
    StreamingState.finalizing ≠ StreamingState.completed := by
  refine ⟨rfl, rfl, by decide⟩

/-- Claim C3, amended: once the machine has reached `Completed` or `Error`
through the normal lifecycle (so `isSucceeded` is set), a `startStreaming`
request leaves the state unchanged and reports `false`, but
`startFinalizing`, `complete` and `setError` requests each overwrite the
state unconditionally — `Completed` and `Error` are terminal only against
`startStreaming` requests. -/
theorem claim3_amended (s : SMState) (hs : s.isSucceeded = true)
    (hterm : s.state = StreamingState.completed ∨ s.state = StreamingState.error) :
    (applyReq s TransReq.startStreaming = s ∧ (s.startStreaming).2 = false) ∧
    (applyReq s TransReq.startFinalizing).state = StreamingState.finalizing ∧
    (applyReq s TransReq.complete).state = StreamingState.completed ∧
    (applyReq s TransReq.setError).state = StreamingState.error := by
  cases hterm <;>
    simp [applyReq, SMState.startStreaming, SMState.startFinalizing, SMState.complete,
      SMState.setError, hs]

/-- Claim C3, witness for the amended theorem at the concrete state
reached by completing a stream. -/
theorem claim3_witness :
    (applyReq ⟨StreamingState.completed, true⟩ TransReq.startStreaming
        = ⟨StreamingState.completed, true⟩) ∧
    (applyReq ⟨StreamingState.completed, true⟩ TransReq.setError).state
        = StreamingState.error :=
  ⟨(claim3_amended ⟨StreamingState.completed, true⟩ rfl (Or.inl rfl)).1.1,
   (claim3_amended ⟨StreamingState.completed, true⟩ rfl (Or.inl rfl)).2.2.2⟩

/-! ## Claim C7 -/

/-- Claim C7: the Initializing-to-Streaming transition happens at most
once.  `startStreaming` returns `true` on a fresh handler and `false`
after any positive number of `initializeStream` invocations, and iterating
`initializeStream` any positive number of times writes the response
headers (status 200, `text/event-stream`, `no-cache`, `keep-alive`) and
the `message_start`/`ping` preamble exactly once. -/
theorem claim7_initializeOnce (n : Nat) (hn : 1 ≤ n) :
    (iterInit n freshHandler).2
      = [Event.headersWritten 200 stdHeaders, Event.messageStart, Event.ping] ∧
    (freshHandler.stateManager.startStreaming).2 = true ∧
    ((iterInit n freshHandler).1.stateManager.startStreaming).2 = false := by
  have hstable : ∀ (m : Nat) (h : HState), h.stateManager.isSucceeded = true →
      iterInit m h = (h, []) := by
    intro m
    induction m with
    | zero => intro h _; rfl
    | succ k ih =>
      intro h hsu
      have hini : initializeStream h = (h, []) := by
        simp [initializeStream, SMState.startStreaming, hsu]
      simp [iterInit, hini, ih h hsu]
  obtain ⟨m, rfl⟩ : ∃ m, n = m + 1 := ⟨n - 1, (Nat.succ_pred_eq_of_pos hn).symm⟩
  have h1 : initializeStream freshHandler
      = ({ freshHandler with stateManager := ⟨StreamingState.streaming, true⟩ },
         [Event.headersWritten 200 stdHeaders, Event.messageStart, Event.ping]) := by
    simp [initializeStream, freshHandler, freshSM, SMState.startStreaming]
  refine ⟨?_, by simp [freshHandler, freshSM, SMState.startStreaming], ?_⟩ <;>
    simp [iterInit, h1, hstable, SMState.startStreaming]

/-- Claim C7, witness: three initialization attempts still produce the
preamble exactly once. -/
theorem claim7_witness :
    (iterInit 3 freshHandler).2
      = [Event.headersWritten 200 stdHeaders, Event.messageStart, Event.ping] ∧
    ((iterInit 3 freshHandler).1.stateManager.startStreaming).2 = false :=
  ⟨(claim7_initializeOnce 3 (by decide)).1, (claim7_initializeOnce 3 (by decide)).2.2⟩

/-! ## Claim C9 -/

/-- Claim C9: a decoded delta carrying no `tool_calls` array whose
`content` and `reasoning` fields are each absent or the empty string is a
no-op: no events are emitted and the processor state (text block flag and
both accumulators included) is unchanged. -/
theorem claim9_emptyDeltaNoop (s : CPState) (d : Delta)
    (htc : d.tool_calls = none)
    (hc : d.content = none ∨ d.content = some [])
    (hr : d.reasoning = none ∨ d.reasoning = some []) :
    processDelta s (some d) = (s, []) := by
  obtain ⟨tc, c, r⟩ := d
  cases htc
  cases hc <;> cases hr <;> simp_all [processDelta]

/-- Claim C9, witness: a delta with `content: ""` is a no-op. -/
theorem claim9_witness :
    processDelta freshCP (some ⟨none, some [], none⟩) = (freshCP, []) :=
  claim9_emptyDeltaNoop freshCP ⟨none, some [], none⟩ rfl (Or.inr rfl) (Or.inl rfl)

/-! ## Claim C8 -/

/-- Claim C8, counterexample: a backend usage object reporting
`completion_tokens: 0` is *not* authoritative.  With empty accumulators
the engine returns the word-count estimate 2 (JS `''.split(' ')` has
length 1 for each accumulator) instead of the reported 0. -/
theorem claim8_counterexample :
    calculateOutputTokens freshCP (some ⟨none, some 0⟩) = 2 ∧ (2 : Nat) ≠ 0 := by
  refine ⟨rfl, by decide⟩

/-- Claim C8, amended: the `message_delta` usage figure produced at
finalization is `calculateOutputTokens` of the last-seen usage; the
backend-reported completion-token count is authoritative only when it is
present and non-zero, and otherwise (usage absent, field absent, or a
reported count of 0) the result is the whitespace word-count estimate
`wordCount(answer) + wordCount(reasoning)` over the accumulated texts. -/
theorem claim8_amended (h : HState) :
    (finalizeStream h).2
      = sendContentBlockStops h.contentProcessor
        ++ [Event.messageDelta (getStopReason h.contentProcessor)
              (calculateOutputTokens h.contentProcessor h.usage),
            Event.messageStop, Event.transportEnd] ∧
    (∀ p n, h.usage = some ⟨p, some n⟩ → n ≠ 0 →
      calculateOutputTokens h.contentProcessor h.usage = n) ∧
    ((h.usage.bind Usage.completion_tokens).getD 0 = 0 →
      calculateOutputTokens h.contentProcessor h.usage
        = wordCount h.contentProcessor.accumulatedContent
          + wordCount h.contentProcessor.accumulatedReasoning) := by
  refine ⟨rfl, ?_, ?_⟩
  · intro p n hu hn
    simp [calculateOutputTokens, hu, hn]
  · intro hz
    cases hu : h.usage with
    | none => simp [calculateOutputTokens, hu]
    | some u =>
      cases hct : u.completion_tokens with
      | none => simp [calculateOutputTokens, hu, hct]
      | some n =>
        rw [hu] at hz
        simp [Option.bind, hct] at hz
        simp [calculateOutputTokens, hu, hct, hz]

/-- Claim C8, witness: a handler that saw `completion_tokens: 7` reports 7
in `message_delta`, and one whose last-seen count is 0 falls back to the
estimate. -/
theorem claim8_witness :
    calculateOutputTokens freshCP (some ⟨some 3, some 7⟩) = 7 :=
  (claim8_amended { freshHandler with usage := some ⟨some 3, some 7⟩ }).2.1
    (some 3) 7 rfl (by decide)

/-! ## Claim C4 -/

theorem joinLinesNl_cons (ls : List Str) (lss : List (List Str)) :
    joinLinesNl (ls :: lss) = ((ls.map (fun l => l ++ ['\n'])).flatten) ++ joinLinesNl lss := by
  simp [joinLinesNl]

/-- Invariant of the chunk-feeding loop: the lines returned so far, each
with its `'\n'` terminator reinstated, followed by the retained fragment,
reconstruct the buffered prefix plus all fed chunks. -/
theorem feedChunks_reconstruct (chunks : List Str) (bm : BMState) :
    joinLinesNl (feedChunks bm chunks).2 ++ (feedChunks bm chunks).1.lineBuffer
      = bm.lineBuffer ++ chunks.flatten := by
  induction chunks generalizing bm with
  | nil => simp [feedChunks, joinLinesNl]
  | cons c cs ih =>
    have hparts := joinCh_eq_dropLast_append '\n' (splitOnCh '\n' (bm.lineBuffer ++ c))
      (splitOnCh_ne_nil '\n' (bm.lineBuffer ++ c))
    rw [joinCh_splitOnCh] at hparts
    simp only [feedChunks, BMState.extractCompleteLines, List.flatten_cons]
    rw [joinLinesNl_cons, List.append_assoc, ih]
    simp only [← List.append_assoc]
    rw [hparts]

/-- Claim C4, counterexample: concatenating the returned lines and the
retained fragment alone does *not* reconstruct the input, because
`split('\n')` drops the line-terminator bytes.  Feeding the single chunk
`"a\nb"` returns the line `"a"` and retains the fragment `"b"`, whose
concatenation `"ab"` differs from the input. -/
theorem claim4_counterexample :
    ((feedChunks freshBM ["a\nb".toList]).2.flatten.flatten)
        ++ ((feedChunks freshBM ["a\nb".toList]).1.getRemainingLineBuffer).2
      ≠ "a\nb".toList := by
  decide

/-- Claim C4, amended: for every chunk sequence, concatenating — in call
order — the lines returned by `extractCompleteLines` *each followed by the
`'\n'` terminator consumed by the split*, then the fragment returned by
`getRemainingLineBuffer`, exactly reconstructs the concatenation of the
input chunks; no bytes are dropped or duplicated beyond the removed
terminators. -/
theorem claim4_reconstruct (chunks : List Str) :
    joinLinesNl (feedChunks freshBM chunks).2
        ++ ((feedChunks freshBM chunks).1.getRemainingLineBuffer).2
      = chunks.flatten := by
  have := feedChunks_reconstruct chunks freshBM
  simpa [BMState.getRemainingLineBuffer, freshBM] using this

/-! ## Claim C5 -/

/-- Claim C5, counterexample: the claim's third truncation signature is
"unexpected token at end", but the code tests `includes('Unexpected
token')` with no position restriction.  A complete, malformed payload
(an HTML error page) failing with `Unexpected token < in JSON at
position 0` — the token at the start of a 15-byte payload, so matching
none of the claim's three signatures — is nevertheless added to the
recovery buffer and raises no error, where the claim demands immediate
fatality and no buffering. -/
theorem claim5_counterexample :
    claimTruncationSignature ("<!DOCTYPE html>".toList)
        ("Unexpected token < in JSON at position 0".toList) = false ∧
    isRecoverableJsonError ("Unexpected token < in JSON at position 0".toList) = true ∧
    (processDataEntry parseTokenAtStart oracleNever freshHandler 0
        ("data: <!DOCTYPE html>".toList)).h.bufferManager.isBuffering = true ∧
    (processDataEntry parseTokenAtStart oracleNever freshHandler 0
        ("data: <!DOCTYPE html>".toList)).h.bufferManager.jsonBuffer
      = "<!DOCTYPE html>".toList ∧
    (processDataEntry parseTokenAtStart oracleNever freshHandler 0
        ("data: <!DOCTYPE html>".toList)).err = none := by
  refine ⟨by decide, by decide, by decide, by decide, by decide⟩

/-- Claim C5, amended: when a `data:` entry's direct JSON parse fails
(outside recovery mode, with a non-sentinel payload), the handler enters
recovery buffering — seeding the recovery buffer with exactly the failing
payload, throwing nothing and emitting nothing — if and only if the
failure message contains one of the three substrings tested by
`isRecoverableJsonError`: `Unterminated string`, `Unexpected end of JSON
input`, or `Unexpected token` *anywhere in the message* (not only for a
token at the end, as the claim's third signature reads); every parse
failure whose message contains none of these immediately throws the
typed streaming `parseError` and leaves the buffer manager untouched
(the payload is never added to the recovery buffer). -/
theorem claim5_recoveryDispatch (parse : Str → Except Str ParsedPayload)
    (oracle : Nat → Bool) (h : HState) (n : Nat) (entry m : Str)
    (hnb : h.bufferManager.isBuffering = false)
    (hdp : ("data:".toList).isPrefixOf (trimStr entry) = true)
    (hnd : dataStrOf entry ≠ "[DONE]".toList)
    (hparse : parse (dataStrOf entry) = Except.error m) :
    (((processDataEntry parse oracle h n entry).h.bufferManager.isBuffering = true ∧
      (processDataEntry parse oracle h n entry).h.bufferManager.jsonBuffer = dataStrOf entry ∧
      (processDataEntry parse oracle h n entry).err = none ∧
      (processDataEntry parse oracle h n entry).evs = [])
        ↔ isRecoverableJsonError m = true) ∧
    (isRecoverableJsonError m = false →
      (processDataEntry parse oracle h n entry).err
          = some (PErr.parseError (dataStrOf entry) m) ∧
      (processDataEntry parse oracle h n entry).h.bufferManager = h.bufferManager ∧
      (processDataEntry parse oracle h n entry).evs = []) := by
  rw [dataStrOf] at hnd hparse
  simp only [processDataEntry, hdp, hnb, Bool.false_eq_true, false_and, if_neg hnd,
    if_false, not_true, hparse]
  cases hrec : isRecoverableJsonError m with
  | true =>
    simp [BMState.startBuffering, dataStrOf]
  | false =>
    simp [hnb, dataStrOf]

/-- Claim C5, witness: the payload `x` failing with an
`Unterminated string` message enters recovery buffering with the payload
as the fresh buffer, and with a `boom` failure message the same entry
throws the typed parse error and never touches the buffer. -/
theorem claim5_witness :
    ((processDataEntry parseTruncated oracleNever freshHandler 0
        ("data: x".toList)).h.bufferManager.isBuffering = true ∧
      (processDataEntry parseTruncated oracleNever freshHandler 0
        ("data: x".toList)).h.bufferManager.jsonBuffer = dataStrOf ("data: x".toList) ∧
      (processDataEntry parseTruncated oracleNever freshHandler 0
        ("data: x".toList)).err = none ∧
      (processDataEntry parseTruncated oracleNever freshHandler 0
        ("data: x".toList)).evs = []) ∧
    (processDataEntry parseMalformed oracleNever freshHandler 0
        ("data: x".toList)).err
      = some (PErr.parseError (dataStrOf ("data: x".toList)) ("boom".toList)) :=
  ⟨(claim5_recoveryDispatch parseTruncated oracleNever freshHandler 0
      ("data: x".toList) ("Unterminated string in JSON at position 5".toList)
      rfl (by decide) (by decide) rfl).1.mpr (by decide),
   ((claim5_recoveryDispatch parseMalformed oracleNever freshHandler 0
      ("data: x".toList) ("boom".toList)
      rfl (by decide) (by decide) rfl).2 (by decide)).1⟩

/-! ## Claim C10 -/

theorem processContent_evs (s : CPState) (c : Str) :
    (processContent s c).2
      = (if s.textBlockStarted then ([] : List Event) else [Event.blockStartText 0])
        ++ [Event.textDelta 0 c] := by
  simp only [processContent]
  split <;> simp

theorem processReasoning_evs (s : CPState) (r : Str) :
    (processReasoning s r).2
      = (if s.textBlockStarted then ([] : List Event) else [Event.blockStartText 0])
        ++ [Event.thinkingDelta 0 r] := by
  simp only [processReasoning]
  split <;> simp

theorem processToolCall_textUntouched (s : CPState) (tc : ToolCall) :
    (processToolCall s tc).1.accumulatedContent = s.accumulatedContent ∧
    (processToolCall s tc).1.accumulatedReasoning = s.accumulatedReasoning ∧
    (processToolCall s tc).1.textBlockStarted = s.textBlockStarted ∧
    ∀ e ∈ (processToolCall s tc).2, isToolEv e = true := by
  simp only [processToolCall]
  cases lookupTool s.toolCallAccumulators tc.index <;>
    · dsimp only
      split <;> simp [isToolEv]

theorem runToolCalls_textUntouched (tcs : List ToolCall) (s : CPState) :
    (runToolCalls s tcs).1.accumulatedContent = s.accumulatedContent ∧
    (runToolCalls s tcs).1.accumulatedReasoning = s.accumulatedReasoning ∧
    (runToolCalls s tcs).1.textBlockStarted = s.textBlockStarted ∧
    ∀ e ∈ (runToolCalls s tcs).2, isToolEv e = true := by
  induction tcs generalizing s with
  | nil => simp [runToolCalls]
  | cons tc tcs ih =>
    obtain ⟨h1, h2, h3, h4⟩ := processToolCall_textUntouched s tc
    obtain ⟨g1, g2, g3, g4⟩ := ih (processToolCall s tc).1
    refine ⟨by simp [runToolCalls, g1, h1], by simp [runToolCalls, g2, h2],
      by simp [runToolCalls, g3, h3], ?_⟩
    intro e he
    simp only [runToolCalls, List.mem_append] at he
    rcases he with he | he
    · exact h4 e he
    · exact g4 e he

/-- Claim C10: each decoded delta is routed to at most one channel, chosen
by the fixed precedence `tool_calls` over `content` over `reasoning` under
JS truthiness, and the lower-precedence fields of that delta are ignored
entirely: they cause no emitted events and no accumulator changes.  When
`tool_calls` is present the result is exactly the tool-call processing
run (both text accumulators untouched, only tool events emitted); when it
is absent and `content` is non-empty the result is exactly
`processContent` (reasoning accumulator and tool accumulators untouched,
no thinking or tool events); when only `reasoning` is active the result is
exactly `processReasoning`. -/
theorem claim10_channelPrecedence (s : CPState) (d : Delta) :
    (∀ tcs, d.tool_calls = some tcs →
      processDelta s (some d) = runToolCalls s tcs ∧
      (processDelta s (some d)).1.accumulatedContent = s.accumulatedContent ∧
      (processDelta s (some d)).1.accumulatedReasoning = s.accumulatedReasoning ∧
      ∀ e ∈ (processDelta s (some d)).2,
        isTextDeltaEv e = false ∧ isThinkingDeltaEv e = false) ∧
    (∀ c cs, d.tool_calls = none → d.content = some (c :: cs) →
      processDelta s (some d) = processContent s (c :: cs) ∧
      (processDelta s (some d)).1.accumulatedReasoning = s.accumulatedReasoning ∧
      (processDelta s (some d)).1.toolCallAccumulators = s.toolCallAccumulators ∧
      ∀ e ∈ (processDelta s (some d)).2,
        isThinkingDeltaEv e = false ∧ isToolEv e = false) ∧
    (∀ r rs, d.tool_calls = none → (d.content = none ∨ d.content = some []) →
      d.reasoning = some (r :: rs) →
      processDelta s (some d) = processReasoning s (r :: rs) ∧
      (processDelta s (some d)).1.accumulatedContent = s.accumulatedContent ∧
      (processDelta s (some d)).1.toolCallAccumulators = s.toolCallAccumulators ∧
      ∀ e ∈ (processDelta s (some d)).2,
        isTextDeltaEv e = false ∧ isToolEv e = false) := by
  obtain ⟨tc, c, r⟩ := d
  refine ⟨?_, ?_, ?_⟩
  · rintro tcs rfl
    obtain ⟨h1, h2, h3, h4⟩ := runToolCalls_textUntouched tcs s
    refine ⟨rfl, h1, h2, ?_⟩
    intro e he
    have := h4 e he
    cases e <;> simp_all [isToolEv, isTextDeltaEv, isThinkingDeltaEv]
  · rintro c0 cs rfl rfl
    refine ⟨rfl, ?_, ?_, ?_⟩
    · simp only [processDelta, processContent]
      split <;> simp
    · simp only [processDelta, processContent]
      split <;> simp
    · intro e he
      have hevs : (processDelta s (some ⟨none, some (c0 :: cs), r⟩)).2
          = (processContent s (c0 :: cs)).2 := rfl
      rw [hevs, processContent_evs] at he
      by_cases hs : s.textBlockStarted
      · simp [hs] at he
        subst he
        simp [isThinkingDeltaEv, isToolEv]
      · simp [hs] at he
        rcases he with rfl | rfl <;> simp [isThinkingDeltaEv, isToolEv]
  · rintro r0 rs rfl hc hr
    change r = some (r0 :: rs) at hr
    subst hr
    have hc2 : c = none ∨ c = some [] := by
      rcases hc with hc | hc
      · exact Or.inl hc
      · exact Or.inr hc
    have hpd : processDelta s (some ⟨none, c, some (r0 :: rs)⟩)
        = processReasoning s (r0 :: rs) := by
      rcases hc2 with rfl | rfl <;> simp [processDelta]
    refine ⟨hpd, ?_, ?_, ?_⟩
    · rw [hpd]
      simp only [processReasoning]
      split <;> simp
    · rw [hpd]
      simp only [processReasoning]
      split <;> simp
    · intro e he
      rw [hpd, processReasoning_evs] at he
      by_cases hs : s.textBlockStarted
      · simp [hs] at he
        subst he
        simp [isTextDeltaEv, isToolEv]
      · simp [hs] at he
        rcases he with rfl | rfl <;> simp [isTextDeltaEv, isToolEv]

/-- Claim C10, witness: a (protocol-violating) delta carrying all three of
`tool_calls`, `content` and `reasoning` is processed as a pure tool-call
delta: the text accumulators stay empty. -/
theorem claim10_witness :
    processDelta freshCP
        (some ⟨some [⟨0, "a".toList, ⟨"f".toList, none⟩⟩], some "x".toList, some "y".toList⟩)
      = runToolCalls freshCP [⟨0, "a".toList, ⟨"f".toList, none⟩⟩] ∧
    (processDelta freshCP
        (some ⟨some [⟨0, "a".toList, ⟨"f".toList, none⟩⟩], some "x".toList,
          some "y".toList⟩)).1.accumulatedContent = [] :=
  ⟨((claim10_channelPrecedence freshCP
      ⟨some [⟨0, "a".toList, ⟨"f".toList, none⟩⟩], some "x".toList, some "y".toList⟩).1
      [⟨0, "a".toList, ⟨"f".toList, none⟩⟩] rfl).1,
   ((claim10_channelPrecedence freshCP
      ⟨some [⟨0, "a".toList, ⟨"f".toList, none⟩⟩], some "x".toList, some "y".toList⟩).1
      [⟨0, "a".toList, ⟨"f".toList, none⟩⟩] rfl).2.1⟩

/-! ## Claim C1 -/

theorem lookupTool_setTool_self (ts : List (Nat × Str)) (i : Nat) (v : Str) :
    lookupTool (setTool ts i v) i = some v := by
  induction ts with
  | nil => simp [setTool, lookupTool]
  | cons kv ts ih =>
    obtain ⟨k, w⟩ := kv
    by_cases hik : i = k
    · simp [setTool, hik, lookupTool]
    · by_cases hlt : i < k
      · simp [setTool, hik, hlt, lookupTool]
      · simp [setTool, hik, hlt, lookupTool, ih]

theorem lookupTool_setTool_ne (ts : List (Nat × Str)) (i j : Nat) (v : Str)
    (hji : j ≠ i) : lookupTool (setTool ts i v) j = lookupTool ts j := by
  induction ts with
  | nil => simp [setTool, lookupTool, hji]
  | cons kv ts ih =>
    obtain ⟨k, w⟩ := kv
    by_cases hik : i = k
    · subst hik
      simp [setTool, lookupTool, hji]
    · by_cases hlt : i < k
      · simp [setTool, hik, hlt, lookupTool, hji]
      · by_cases hjk : j = k
        · simp [setTool, hik, hlt, lookupTool, hjk]
        · simp [setTool, hik, hlt, lookupTool, hjk, ih]

theorem jsonDeltasAt_append (i : Nat) (a b : List Event) :
    jsonDeltasAt i (a ++ b) = jsonDeltasAt i a ++ jsonDeltasAt i b := by
  simp [jsonDeltasAt]

theorem concatAt_append (i : Nat) (a b : List Event) :
    concatAt i (a ++ b) = concatAt i a ++ concatAt i b := by
  simp [concatAt, jsonDeltasAt_append]

theorem mem_jsonDeltasAt (i : Nat) (d : Str) (evs : List Event)
    (h : Event.inputJsonDelta i d ∈ evs) : d ∈ jsonDeltasAt i evs := by
  simp only [jsonDeltasAt, List.mem_filterMap]
  exact ⟨Event.inputJsonDelta i d, h, by simp⟩

theorem isPrefixOf_exists {l₁ l₂ : Str} (h : l₁.isPrefixOf l₂ = true) :
    ∃ t, l₁ ++ t = l₂ := by
  induction l₁ generalizing l₂ with
  | nil => exact ⟨l₂, rfl⟩
  | cons a as ih =>
    cases l₂ with
    | nil => simp [List.isPrefixOf] at h
    | cons b bs =>
      simp only [List.isPrefixOf, Bool.and_eq_true, beq_iff_eq] at h
      obtain ⟨t, ht⟩ := ih h.2
      exact ⟨t, by simp [h.1, ht]⟩

/-- Full characterisation of one `processToolCall` step, as seen through
the per-index accumulator map and the emitted `input_json_delta` frames. -/
theorem processToolCall_char (s : CPState) (tc : ToolCall) :
    (∀ j, j ≠ tc.index →
      lookupTool (processToolCall s tc).1.toolCallAccumulators j
        = lookupTool s.toolCallAccumulators j) ∧
    (∀ j, j ≠ tc.index → jsonDeltasAt j (processToolCall s tc).2 = []) ∧
    (match lookupTool s.toolCallAccumulators tc.index with
     | none =>
       lookupTool (processToolCall s tc).1.toolCallAccumulators tc.index = some (argOf tc) ∧
       jsonDeltasAt tc.index (processToolCall s tc).2
         = if argOf tc = [] then [] else [argOf tc]
     | some cur =>
       if cur.length < (argOf tc).length then
         lookupTool (processToolCall s tc).1.toolCallAccumulators tc.index
             = some (argOf tc) ∧
         jsonDeltasAt tc.index (processToolCall s tc).2 = [(argOf tc).drop cur.length]
       else
         lookupTool (processToolCall s tc).1.toolCallAccumulators tc.index = some cur ∧
         jsonDeltasAt tc.index (processToolCall s tc).2 = []) := by
  cases hl : lookupTool s.toolCallAccumulators tc.index with
  | none =>
    have hset : lookupTool (setTool s.toolCallAccumulators tc.index []) tc.index = some [] :=
      lookupTool_setTool_self _ _ _
    refine ⟨?_, ?_, ?_⟩
    · intro j hj
      simp only [processToolCall, hl, hset, Option.getD_some]
      split <;> simp [lookupTool_setTool_ne _ _ _ _ hj]
    · intro j hj
      have hj2 : ¬ tc.index = j := fun h => hj h.symm
      simp only [processToolCall, hl, hset, Option.getD_some]
      split <;> simp [jsonDeltasAt, hj2]
    · simp only [processToolCall, hl, hset, Option.getD_some]
      split
      · rename_i hpos
        have hne0 : ¬ argOf tc = [] := by
          intro h
          rw [h] at hpos
          simp at hpos
        refine ⟨lookupTool_setTool_self _ _ _, ?_⟩
        rw [if_neg hne0]
        simp [jsonDeltasAt]
      · rename_i hneg
        have h0 : argOf tc = [] := by
          cases hca : argOf tc with
          | nil => rfl
          | cons x xs =>
            rw [hca] at hneg
            simp at hneg
        refine ⟨by rw [h0]; simpa using hset, ?_⟩
        rw [if_pos h0]
        simp [jsonDeltasAt]
  | some cur =>
    refine ⟨?_, ?_, ?_⟩
    · intro j hj
      simp only [processToolCall, hl, Option.getD_some]
      split <;> simp [lookupTool_setTool_ne _ _ _ _ hj]
    · intro j hj
      have hj2 : ¬ tc.index = j := fun h => hj h.symm
      simp only [processToolCall, hl, Option.getD_some]
      split <;> simp [jsonDeltasAt, hj2]
    · simp only [processToolCall, hl, Option.getD_some]
      by_cases hlt : cur.length < (argOf tc).length
      · simp only [if_pos hlt]
        exact ⟨lookupTool_setTool_self _ _ _, by simp [jsonDeltasAt]⟩
      · simp only [if_neg hlt]
        exact ⟨by simpa using hl, by simp [jsonDeltasAt]⟩

/-- Induction invariant for `runToolCallsBatched` starting from a state
whose accumulator for index `i` is `cur` (equal to everything already
emitted for `i`): under cumulative inputs, the emitted deltas extend `cur`
to the last reported argument string, each batch's delta for `i` is the
suffix of that fragment's argument string beyond the length already
emitted, and the accumulator ends at the last argument string. -/
theorem runBatched_inv (i : Nat) (tcs : List ToolCall) (s : CPState) (cur : Str)
    (hl : lookupTool s.toolCallAccumulators i = some cur)
    (hc : cumulB cur (argsAt i tcs) = true) :
    cur ++ concatAt i (runToolCallsBatched s tcs).2.flatten = (argsAt i tcs).getLastD cur ∧
    (∀ k, (hk : k < tcs.length) → ∀ d,
      Event.inputJsonDelta i d ∈ ((runToolCallsBatched s tcs).2.getD k []) →
      d = (argOf (tcs.get ⟨k, hk⟩)).drop
            (cur.length + (concatAt i ((runToolCallsBatched s tcs).2.take k).flatten).length)) ∧
    lookupTool (runToolCallsBatched s tcs).1.toolCallAccumulators i
      = some ((argsAt i tcs).getLastD cur) := by
  induction tcs generalizing s cur with
  | nil =>
    refine ⟨by simp [runToolCallsBatched, concatAt, jsonDeltasAt, argsAt], ?_, ?_⟩
    · intro k hk
      exact absurd hk (by simp)
    · simpa [runToolCallsBatched, argsAt] using hl
  | cons tc rest ih =>
    obtain ⟨hne, hdne, hself⟩ := processToolCall_char s tc
    have hrun : runToolCallsBatched s (tc :: rest)
        = ((runToolCallsBatched (processToolCall s tc).1 rest).1,
           (processToolCall s tc).2 :: (runToolCallsBatched (processToolCall s tc).1 rest).2) := by
      simp [runToolCallsBatched]
    by_cases hidx : tc.index = i
    · subst hidx
      rw [hl] at hself
      dsimp only at hself
      have hargs : argsAt tc.index (tc :: rest) = argOf tc :: argsAt tc.index rest := by
        simp [argsAt]
      rw [hargs] at hc
      simp only [cumulB, Bool.and_eq_true] at hc
      obtain ⟨t, ht⟩ := isPrefixOf_exists hc.1
      have hlent : cur.length + t.length = (argOf tc).length := by
        rw [← ht]
        simp
      by_cases hlen : cur.length < (argOf tc).length
      · rw [if_pos hlen] at hself
        obtain ⟨hl1, hd1⟩ := hself
        obtain ⟨iha, ihb, ihc2⟩ := ih (processToolCall s tc).1 (argOf tc) hl1 hc.2
        have hdrop : (argOf tc).drop cur.length = t := by
          rw [← ht]
          exact List.drop_left cur t
        have hc0 : concatAt tc.index (processToolCall s tc).2 = t := by
          rw [concatAt, hd1, hdrop]
          simp
        refine ⟨?_, ?_, ?_⟩
        · rw [hrun, hargs, List.getLastD_cons]
          dsimp only
          rw [List.flatten_cons, concatAt_append, hc0, ← List.append_assoc, ht, iha]
        · intro k hk d hmem
          match k with
          | 0 =>
            rw [hrun] at hmem
            simp only [List.getD_cons_zero] at hmem
            have hmem2 := mem_jsonDeltasAt _ _ _ hmem
            rw [hd1] at hmem2
            simp only [List.mem_singleton] at hmem2
            subst hmem2
            simp [concatAt, jsonDeltasAt]
          | k + 1 =>
            rw [hrun] at hmem ⊢
            simp only [List.getD_cons_succ] at hmem
            have hk' : k < rest.length := by simpa using hk
            have hihb := ihb k hk' d hmem
            simp only [List.take_succ_cons, List.flatten_cons, concatAt_append,
              List.length_append, hc0, List.get_cons_succ]
            rw [hihb]
            congr 1
            omega
        · rw [hrun, hargs, List.getLastD_cons]
          exact ihc2
      · rw [if_neg hlen] at hself
        obtain ⟨hl1, hd1⟩ := hself
        have hteq : t = [] := by
          have hle : (argOf tc).length ≤ cur.length := Nat.le_of_not_lt hlen
          have : t.length = 0 := by omega
          exact List.eq_nil_of_length_eq_zero this
        subst hteq
        rw [List.append_nil] at ht
        have hc0 : concatAt tc.index (processToolCall s tc).2 = [] := by
          rw [concatAt, hd1]
          rfl
        have hcum : cumulB cur (argsAt tc.index rest) = true := by
          rw [ht]
          exact hc.2
        have hl1' : lookupTool (processToolCall s tc).1.toolCallAccumulators tc.index
            = some cur := hl1
        obtain ⟨iha, ihb, ihc2⟩ := ih (processToolCall s tc).1 cur hl1' hcum
        refine ⟨?_, ?_, ?_⟩
        · rw [hrun, hargs, List.getLastD_cons, ← ht]
          dsimp only
          rw [List.flatten_cons, concatAt_append, hc0]
          simpa using iha
        · intro k hk d hmem
          match k with
          | 0 =>
            rw [hrun] at hmem
            simp only [List.getD_cons_zero] at hmem
            have hmem2 := mem_jsonDeltasAt _ _ _ hmem
            rw [hd1] at hmem2
            simp at hmem2
          | k + 1 =>
            rw [hrun] at hmem ⊢
            simp only [List.getD_cons_succ] at hmem
            have hk' : k < rest.length := by simpa using hk
            have hihb := ihb k hk' d hmem
            simp only [List.take_succ_cons, List.flatten_cons, concatAt_append,
              List.length_append, hc0, List.get_cons_succ]
            simpa using hihb
        · rw [hrun, hargs, List.getLastD_cons, ← ht]
          exact ihc2
    · have hargs : argsAt i (tc :: rest) = argsAt i rest := by
        simp [argsAt, hidx]
      rw [hargs] at hc
      have hl1 : lookupTool (processToolCall s tc).1.toolCallAccumulators i
          = some cur := by
        rw [hne i (fun h => hidx h.symm)]
        exact hl
      obtain ⟨iha, ihb, ihc2⟩ := ih (processToolCall s tc).1 cur hl1 hc
      have hd0 : jsonDeltasAt i (processToolCall s tc).2 = [] :=
        hdne i (fun h => hidx h.symm)
      have hc0 : concatAt i (processToolCall s tc).2 = [] := by
        rw [concatAt, hd0]
        rfl
      refine ⟨?_, ?_, ?_⟩
      · rw [hrun, hargs]
        dsimp only
        rw [List.flatten_cons, concatAt_append, hc0]
        simpa using iha
      · intro k hk d hmem
        match k with
        | 0 =>
          rw [hrun] at hmem
          simp only [List.getD_cons_zero] at hmem
          have hmem2 := mem_jsonDeltasAt _ _ _ hmem
          rw [hd0] at hmem2
          simp at hmem2
        | k + 1 =>
          rw [hrun] at hmem ⊢
          simp only [List.getD_cons_succ] at hmem
          have hk' : k < rest.length := by simpa using hk
          have hihb := ihb k hk' d hmem
          simp only [List.take_succ_cons, List.flatten_cons, concatAt_append,
            List.length_append, hc0, List.get_cons_succ]
          simpa using hihb
      · rw [hrun, hargs]
        exact ihc2

/-- Same invariant from a state that has not yet seen index `i`:
`processToolCall` seeds the accumulator with the empty string before
computing the suffix, so the chain starts at the empty string. -/
theorem runBatched_none (i : Nat) (tcs : List ToolCall) (s : CPState)
    (hl : lookupTool s.toolCallAccumulators i = none)
    (hc : cumulB [] (argsAt i tcs) = true) :
    concatAt i (runToolCallsBatched s tcs).2.flatten = (argsAt i tcs).getLastD [] ∧
    (∀ k, (hk : k < tcs.length) → ∀ d,
      Event.inputJsonDelta i d ∈ ((runToolCallsBatched s tcs).2.getD k []) →
      d = (argOf (tcs.get ⟨k, hk⟩)).drop
            ((concatAt i ((runToolCallsBatched s tcs).2.take k).flatten).length)) := by
  induction tcs generalizing s with
  | nil =>
    refine ⟨by simp [runToolCallsBatched, concatAt, jsonDeltasAt, argsAt], ?_⟩
    intro k hk
    exact absurd hk (by simp)
  | cons tc rest ih =>
    obtain ⟨hne, hdne, hself⟩ := processToolCall_char s tc
    have hrun : runToolCallsBatched s (tc :: rest)
        = ((runToolCallsBatched (processToolCall s tc).1 rest).1,
           (processToolCall s tc).2 :: (runToolCallsBatched (processToolCall s tc).1 rest).2) := by
      simp [runToolCallsBatched]
    by_cases hidx : tc.index = i
    · subst hidx
      rw [hl] at hself
      dsimp only at hself
      obtain ⟨hl1, hd1⟩ := hself
      have hargs : argsAt tc.index (tc :: rest) = argOf tc :: argsAt tc.index rest := by
        simp [argsAt]
      rw [hargs] at hc
      simp only [cumulB, Bool.and_eq_true] at hc
      obtain ⟨iha, ihb, _⟩ := runBatched_inv tc.index rest (processToolCall s tc).1
        (argOf tc) hl1 hc.2
      have hc0 : concatAt tc.index (processToolCall s tc).2 = argOf tc := by
        rw [concatAt, hd1]
        by_cases ha : argOf tc = []
        · rw [if_pos ha, ha]
          rfl
        · rw [if_neg ha]
          simp
      refine ⟨?_, ?_⟩
      · rw [hrun, hargs, List.getLastD_cons]
        dsimp only
        rw [List.flatten_cons, concatAt_append, hc0, iha]
      · intro k hk d hmem
        match k with
        | 0 =>
          rw [hrun] at hmem
          simp only [List.getD_cons_zero] at hmem
          have hmem2 := mem_jsonDeltasAt _ _ _ hmem
          rw [hd1] at hmem2
          by_cases ha : argOf tc = []
          · rw [if_pos ha] at hmem2
            simp at hmem2
          · rw [if_neg ha] at hmem2
            simp only [List.mem_singleton] at hmem2
            subst hmem2
            simp [concatAt, jsonDeltasAt]
        | k + 1 =>
          rw [hrun] at hmem ⊢
          simp only [List.getD_cons_succ] at hmem
          have hk' : k < rest.length := by simpa using hk
          have hihb := ihb k hk' d hmem
          simp only [List.take_succ_cons, List.flatten_cons, concatAt_append,
            List.length_append, hc0, List.get_cons_succ]
          simpa using hihb
    · have hargs : argsAt i (tc :: rest) = argsAt i rest := by
        simp [argsAt, hidx]
      rw [hargs] at hc
      have hl1 : lookupTool (processToolCall s tc).1.toolCallAccumulators i = none := by
        rw [hne i (fun h => hidx h.symm)]
        exact hl
      obtain ⟨iha, ihb⟩ := ih (processToolCall s tc).1 hl1 hc
      have hd0 : jsonDeltasAt i (processToolCall s tc).2 = [] :=
        hdne i (fun h => hidx h.symm)
      have hc0 : concatAt i (processToolCall s tc).2 = [] := by
        rw [concatAt, hd0]
        rfl
      refine ⟨?_, ?_⟩
      · rw [hrun, hargs]
        dsimp only
        rw [List.flatten_cons, concatAt_append, hc0]
        simpa using iha
      · intro k hk d hmem
        match k with
        | 0 =>
          rw [hrun] at hmem
          simp only [List.getD_cons_zero] at hmem
          have hmem2 := mem_jsonDeltasAt _ _ _ hmem
          rw [hd0] at hmem2
          simp at hmem2
        | k + 1 =>
          rw [hrun] at hmem ⊢
          simp only [List.getD_cons_succ] at hmem
          have hk' : k < rest.length := by simpa using hk
          have hihb := ihb k hk' d hmem
          simp only [List.take_succ_cons, List.flatten_cons, concatAt_append,
            List.length_append, hc0, List.get_cons_succ]
          simpa using hihb

/-- Claim C1: for a sequence of tool-call delta fragments whose argument
strings at block index `i` are cumulative (each extends its predecessor),
every `input_json_delta` frame emitted for index `i` carries exactly the
suffix of the fragment's cumulative argument string beyond the length
already emitted for index `i`, and the concatenation of all emitted
deltas for index `i` equals the last (and thus final) cumulative argument
string the backend reported for index `i`. -/
theorem claim1_toolArgSuffixes (tcs : List ToolCall) (i : Nat)
    (hc : cumulB [] (argsAt i tcs) = true) :
    concatAt i (runToolCallsBatched freshCP tcs).2.flatten = (argsAt i tcs).getLastD [] ∧
    (∀ k, (hk : k < tcs.length) → ∀ d,
      Event.inputJsonDelta i d ∈ ((runToolCallsBatched freshCP tcs).2.getD k []) →
      d = (argOf (tcs.get ⟨k, hk⟩)).drop
            ((concatAt i ((runToolCallsBatched freshCP tcs).2.take k).flatten).length)) :=
  runBatched_none i tcs freshCP rfl hc

/-- Claim C1, witness: cumulative fragments `"ab"` then `"abcd"` at index
0 produce deltas concatenating to `"abcd"`, and the second emitted delta
is the suffix `"cd"` beyond the two characters already emitted. -/
theorem claim1_witness :
    concatAt 0 (runToolCallsBatched freshCP
        [⟨0, "a".toList, ⟨"f".toList, some "ab".toList⟩⟩,
         ⟨0, "a".toList, ⟨"f".toList, some "abcd".toList⟩⟩]).2.flatten = "abcd".toList :=
  (claim1_toolArgSuffixes
      [⟨0, "a".toList, ⟨"f".toList, some "ab".toList⟩⟩,
       ⟨0, "a".toList, ⟨"f".toList, some "abcd".toList⟩⟩] 0 (by decide)).1.trans (by decide)

/-! ## Claim C2 -/

theorem countP_eq_zero (p : α → Bool) (l : List α) (h : ∀ e ∈ l, p e = false) :
    countP p l = 0 := by
  induction l with
  | nil => rfl
  | cons x xs ih =>
    have hx := h x (List.mem_cons_self x xs)
    simp only [countP, List.filter_cons, hx, Bool.false_eq_true, if_false]
    exact ih (fun e he => h e (List.mem_cons_of_mem x he))

theorem mem_map_fst_setTool (i : Nat) (v : Str) :
    ∀ ts j, j ∈ (setTool ts i v).map Prod.fst ↔ (j = i ∨ j ∈ ts.map Prod.fst) := by
  intro ts
  induction ts with
  | nil => intro j; simp [setTool]
  | cons kv ts ih =>
    intro j
    obtain ⟨k, w⟩ := kv
    by_cases hik : i = k
    · subst hik
      rw [show setTool ((i, w) :: ts) i v = (i, v) :: ts from by simp [setTool]]
      simp only [List.map_cons, List.mem_cons]
      tauto
    · by_cases hlt : i < k
      · rw [show setTool ((k, w) :: ts) i v = (i, v) :: (k, w) :: ts from by
          simp [setTool, hik, hlt]]
        simp only [List.map_cons, List.mem_cons]
      · rw [show setTool ((k, w) :: ts) i v = (k, w) :: setTool ts i v from by
          simp [setTool, hik, hlt]]
        simp only [List.map_cons, List.mem_cons, ih]
        tauto

theorem setTool_sorted (i : Nat) (v : Str) :
    ∀ ts, toolKeysSorted ts → toolKeysSorted (setTool ts i v) := by
  intro ts
  induction ts with
  | nil =>
    intro _
    simp [setTool, toolKeysSorted]
  | cons kv ts ih =>
    intro h
    obtain ⟨k, w⟩ := kv
    simp only [toolKeysSorted, List.map_cons, List.pairwise_cons] at h
    obtain ⟨hk, hts⟩ := h
    by_cases hik : i = k
    · subst hik
      rw [show setTool ((i, w) :: ts) i v = (i, v) :: ts from by simp [setTool]]
      simp only [toolKeysSorted, List.map_cons, List.pairwise_cons]
      exact ⟨hk, hts⟩
    · by_cases hlt : i < k
      · rw [show setTool ((k, w) :: ts) i v = (i, v) :: (k, w) :: ts from by
          simp [setTool, hik, hlt]]
        simp only [toolKeysSorted, List.map_cons, List.pairwise_cons]
        refine ⟨?_, hk, hts⟩
        intro j hj
        rcases List.mem_cons.mp hj with rfl | hj2
        · exact hlt
        · exact Nat.lt_trans hlt (hk j hj2)
      · have hki : k < i :=
          Nat.lt_of_le_of_ne (Nat.le_of_not_lt hlt) (fun h => hik h.symm)
        rw [show setTool ((k, w) :: ts) i v = (k, w) :: setTool ts i v from by
          simp [setTool, hik, hlt]]
        simp only [toolKeysSorted, List.map_cons, List.pairwise_cons]
        refine ⟨?_, ih hts⟩
        intro j hj
        rcases (mem_map_fst_setTool i v ts j).mp hj with rfl | hj2
        · exact hki
        · exact hk j hj2

theorem lookupTool_isSome_iff (ts : List (Nat × Str)) (i : Nat) :
    (lookupTool ts i).isSome = true ↔ i ∈ ts.map Prod.fst := by
  induction ts with
  | nil => simp [lookupTool]
  | cons kv ts ih =>
    obtain ⟨k, w⟩ := kv
    by_cases hik : i = k
    · simp [lookupTool, hik]
    · simp [lookupTool, hik, ih]

theorem stopsCount_toolKeys (i : Nat) :
    ∀ ts, toolKeysSorted ts →
      countP (isStopAt i) (ts.map (fun kv => Event.blockStop kv.1))
        = if (lookupTool ts i).isSome then 1 else 0 := by
  intro ts
  induction ts with
  | nil =>
    intro _
    simp [countP, lookupTool]
  | cons kv ts ih =>
    intro h
    obtain ⟨k, w⟩ := kv
    simp only [toolKeysSorted, List.map_cons, List.pairwise_cons] at h
    obtain ⟨hk, hts⟩ := h
    by_cases hik : i = k
    · subst hik
      have hnm : i ∉ ts.map Prod.fst := by
        intro hmem
        exact absurd (hk i hmem) (Nat.lt_irrefl i)
      have hz : (lookupTool ts i).isSome = false := by
        cases hl : (lookupTool ts i).isSome with
        | false => rfl
        | true => exact absurd ((lookupTool_isSome_iff ts i).mp hl) hnm
      have hct := ih hts
      rw [if_neg (by simp [hz])] at hct
      simp only [List.map_cons, countP, List.filter_cons, isStopAt, beq_self_eq_true,
        if_pos trivial, lookupTool, if_pos rfl, Option.isSome_some]
      simp only [countP] at hct
      simp [hct]
    · have hbe : (k == i) = false := by
        simp only [beq_eq_false_iff_ne, ne_eq]
        exact fun h => hik h.symm
      have hct := ih hts
      simp only [List.map_cons, countP, List.filter_cons, isStopAt, hbe, Bool.false_eq_true,
        if_false, lookupTool, if_neg hik]
      simpa [countP] using hct

theorem processToolCall_startEvs (s : CPState) (tc : ToolCall) (i : Nat) :
    countP (isStartAt i) (processToolCall s tc).2
      = if lookupTool s.toolCallAccumulators tc.index = none then
          (if tc.index = i then 1 else 0)
        else 0 := by
  simp only [processToolCall]
  cases hl : lookupTool s.toolCallAccumulators tc.index <;>
    · dsimp only
      split <;> by_cases hidx : tc.index = i <;>
        simp [countP, isStartAt, hidx, List.filter_cons]

theorem processToolCall_encountered (s : CPState) (tc : ToolCall) :
    (processToolCall s tc).1.encounteredToolCall = true := by
  simp only [processToolCall]
  cases lookupTool s.toolCallAccumulators tc.index <;>
    · dsimp only
      split <;> rfl

theorem processToolCall_invStep (s : CPState) (tc : ToolCall) (i : Nat) :
    countP (isStartAt i) (processToolCall s tc).2 + startCount s i
      = startCount (processToolCall s tc).1 i ∧
    countP (isStopAt i) (processToolCall s tc).2 = 0 ∧
    (toolKeysSorted s.toolCallAccumulators →
      toolKeysSorted (processToolCall s tc).1.toolCallAccumulators) := by
  obtain ⟨hne, hdne, hself⟩ := processToolCall_char s tc
  obtain ⟨_, _, htb, hallTool⟩ := processToolCall_textUntouched s tc
  refine ⟨?_, ?_, ?_⟩
  · rw [processToolCall_startEvs]
    by_cases hidx : tc.index = i
    · subst hidx
      cases hl : lookupTool s.toolCallAccumulators tc.index with
      | none =>
        rw [hl] at hself
        dsimp only at hself
        simp [startCount, htb, hl, hself.1]
        omega
      | some cur =>
        rw [hl] at hself
        dsimp only at hself
        by_cases hlen : cur.length < (argOf tc).length
        · rw [if_pos hlen] at hself
          simp [startCount, htb, hl, hself.1]
        · rw [if_neg hlen] at hself
          simp [startCount, htb, hl, hself.1]
    · have hlk := hne i (fun h => hidx h.symm)
      cases hl : lookupTool s.toolCallAccumulators tc.index <;>
        simp [startCount, htb, hlk, hidx]
  · refine countP_eq_zero _ _ (fun e he => ?_)
    have := hallTool e he
    cases e <;> simp_all [isToolEv, isStopAt]
  · intro hs
    simp only [processToolCall]
    cases lookupTool s.toolCallAccumulators tc.index <;>
      · dsimp only
        split <;>
          first
          | exact setTool_sorted _ _ _ (setTool_sorted _ _ _ hs)
          | exact setTool_sorted _ _ _ hs
          | exact hs

theorem runToolCalls_enc (tcs : List ToolCall) (s : CPState)
    (h : (runToolCalls s tcs).1.encounteredToolCall = false) :
    tcs = [] ∧ runToolCalls s tcs = (s, []) := by
  cases tcs with
  | nil => exact ⟨rfl, rfl⟩
  | cons tc rest =>
    exfalso
    have hrun : (runToolCalls s (tc :: rest)).1
        = (runToolCalls (processToolCall s tc).1 rest).1 := by
      simp [runToolCalls]
    rw [hrun] at h
    rcases hr : rest with _ | ⟨tc2, rest2⟩
    · rw [hr] at h
      simp only [runToolCalls] at h
      rw [processToolCall_encountered] at h
      exact Bool.true_eq_false.mp h
    · rw [hr] at h
      have : ∀ (ts : List ToolCall) (s0 : CPState), s0.encounteredToolCall = true →
          (runToolCalls s0 ts).1.encounteredToolCall = true := by
        intro ts
        induction ts with
        | nil => intro s0 h0; exact h0
        | cons a as ih =>
          intro s0 h0
          simp only [runToolCalls]
          exact ih (processToolCall s0 a).1 (processToolCall_encountered s0 a)
      have h2 := this (tc2 :: rest2) (processToolCall s tc).1
        (processToolCall_encountered s tc)
      rw [h] at h2
      exact Bool.false_eq_true.mp h2

theorem runToolCallsFlat_inv (tcs : List ToolCall) :
    ∀ (s : CPState) (i : Nat),
      countP (isStartAt i) (runToolCalls s tcs).2 + startCount s i
        = startCount (runToolCalls s tcs).1 i ∧
      countP (isStopAt i) (runToolCalls s tcs).2 = 0 ∧
      (toolKeysSorted s.toolCallAccumulators →
        toolKeysSorted (runToolCalls s tcs).1.toolCallAccumulators) := by
  induction tcs with
  | nil =>
    intro s i
    exact ⟨by simp [runToolCalls, countP], by simp [runToolCalls, countP], fun h => h⟩
  | cons tc rest ih =>
    intro s i
    obtain ⟨h1, h2, h3⟩ := processToolCall_invStep s tc i
    obtain ⟨g1, g2, g3⟩ := ih (processToolCall s tc).1 i
    have hrun : runToolCalls s (tc :: rest)
        = ((runToolCalls (processToolCall s tc).1 rest).1,
           (processToolCall s tc).2 ++ (runToolCalls (processToolCall s tc).1 rest).2) := by
      simp [runToolCalls]
    refine ⟨?_, ?_, ?_⟩
    · rw [hrun]
      dsimp only
      rw [countP_append]
      omega
    · rw [hrun]
      dsimp only
      rw [countP_append, h2, g2]
    · intro hs
      rw [hrun]
      exact g3 (h3 hs)

theorem processContent_state (s : CPState) (c : Str) :
    (processContent s c).1.toolCallAccumulators = s.toolCallAccumulators ∧
    (processContent s c).1.encounteredToolCall = s.encounteredToolCall := by
  simp only [processContent]
  split <;> simp

theorem processReasoning_state (s : CPState) (r : Str) :
    (processReasoning s r).1.toolCallAccumulators = s.toolCallAccumulators ∧
    (processReasoning s r).1.encounteredToolCall = s.encounteredToolCall := by
  simp only [processReasoning]
  split <;> simp

theorem processDelta_inv (s : CPState) (d : Delta) (i : Nat) (hinv : CPInv s) :
    CPInv (processDelta s (some d)).1 ∧
    countP (isStartAt i) (processDelta s (some d)).2 + startCount s i
      = startCount (processDelta s (some d)).1 i ∧
    countP (isStopAt i) (processDelta s (some d)).2 = 0 := by
  obtain ⟨tcsF, c, r⟩ := d
  cases tcsF with
  | some tcs =>
    obtain ⟨h1, h2, h3⟩ := runToolCallsFlat_inv tcs s i
    have hpd : processDelta s (some ⟨some tcs, c, r⟩) = runToolCalls s tcs := rfl
    rw [hpd]
    refine ⟨⟨h3 hinv.1, ?_⟩, h1, h2⟩
    intro henc
    obtain ⟨_, hrun⟩ := runToolCalls_enc tcs s henc
    rw [hrun] at henc ⊢
    exact hinv.2 henc
  | none =>
    cases hc : c with
    | some cstr =>
      cases cstr with
      | nil =>
        cases hr : r with
        | some rstr =>
          cases rstr with
          | nil =>
            refine ⟨hinv, ?_, ?_⟩ <;> simp [processDelta, countP]
          | cons r0 rs =>
            have hpd : processDelta s (some ⟨none, some [], some (r0 :: rs)⟩)
                = processReasoning s (r0 :: rs) := by simp [processDelta]
            rw [hpd]
            obtain ⟨hst1, hst2⟩ := processReasoning_state s (r0 :: rs)
            refine ⟨⟨by rw [hst1]; exact hinv.1, ?_⟩, ?_, ?_⟩
            · intro henc
              rw [hst2] at henc
              rw [hst1]
              exact hinv.2 henc
            · rw [processReasoning_evs]
              by_cases hs : s.textBlockStarted <;>
                by_cases hi : i = 0 <;>
                  simp [hs, hi, countP, isStartAt, startCount, processReasoning,
                    List.filter_cons] <;> omega
            · rw [processReasoning_evs]
              by_cases hs : s.textBlockStarted <;>
                simp [hs, countP, isStopAt, List.filter_cons]
        | none =>
          refine ⟨hinv, ?_, ?_⟩ <;> simp [processDelta, countP]
      | cons c0 cs =>
        have hpd : processDelta s (some ⟨none, some (c0 :: cs), r⟩)
            = processContent s (c0 :: cs) := rfl
        rw [hpd]
        obtain ⟨hst1, hst2⟩ := processContent_state s (c0 :: cs)
        refine ⟨⟨by rw [hst1]; exact hinv.1, ?_⟩, ?_, ?_⟩
        · intro henc
          rw [hst2] at henc
          rw [hst1]
          exact hinv.2 henc
        · rw [processContent_evs]
          by_cases hs : s.textBlockStarted <;>
            by_cases hi : i = 0 <;>
              simp [hs, hi, countP, isStartAt, startCount, processContent,
                List.filter_cons] <;> omega
        · rw [processContent_evs]
          by_cases hs : s.textBlockStarted <;>
            simp [hs, countP, isStopAt, List.filter_cons]
    | none =>
      cases hr : r with
      | some rstr =>
        cases rstr with
        | nil =>
          refine ⟨hinv, ?_, ?_⟩ <;> simp [processDelta, countP]
        | cons r0 rs =>
          have hpd : processDelta s (some ⟨none, none, some (r0 :: rs)⟩)
              = processReasoning s (r0 :: rs) := rfl
          rw [hpd]
          obtain ⟨hst1, hst2⟩ := processReasoning_state s (r0 :: rs)
          refine ⟨⟨by rw [hst1]; exact hinv.1, ?_⟩, ?_, ?_⟩
          · intro henc
            rw [hst2] at henc
            rw [hst1]
            exact hinv.2 henc
          · rw [processReasoning_evs]
            by_cases hs : s.textBlockStarted <;>
              by_cases hi : i = 0 <;>
                simp [hs, hi, countP, isStartAt, startCount, processReasoning,
                  List.filter_cons] <;> omega
          · rw [processReasoning_evs]
            by_cases hs : s.textBlockStarted <;>
              simp [hs, countP, isStopAt, List.filter_cons]
      | none =>
        refine ⟨hinv, ?_, ?_⟩ <;> simp [processDelta, countP]

theorem runDeltas_inv (ds : List Delta) :
    ∀ (s : CPState) (i : Nat), CPInv s →
      CPInv (runDeltas s ds).1 ∧
      countP (isStartAt i) (runDeltas s ds).2 + startCount s i
        = startCount (runDeltas s ds).1 i ∧
      countP (isStopAt i) (runDeltas s ds).2 = 0 := by
  induction ds with
  | nil =>
    intro s i hinv
    exact ⟨hinv, by simp [runDeltas, countP], by simp [runDeltas, countP]⟩
  | cons d ds ih =>
    intro s i hinv
    obtain ⟨h1, h2, h3⟩ := processDelta_inv s d i hinv
    obtain ⟨g1, g2, g3⟩ := ih (processDelta s (some d)).1 i h1
    have hrun : runDeltas s (d :: ds)
        = ((runDeltas (processDelta s (some d)).1 ds).1,
           (processDelta s (some d)).2 ++ (runDeltas (processDelta s (some d)).1 ds).2) := by
      simp [runDeltas]
    rw [hrun]
    refine ⟨g1, ?_, ?_⟩
    · dsimp only
      rw [countP_append]
      omega
    · dsimp only
      rw [countP_append, h3, g3]

theorem sendStops_no_starts (s : CPState) (i : Nat) :
    countP (isStartAt i) (sendContentBlockStops s) = 0 := by
  refine countP_eq_zero _ _ (fun e he => ?_)
  simp only [sendContentBlockStops] at he
  split at he
  · obtain ⟨kv, _, rfl⟩ := List.mem_map.mp he
    rfl
  · split at he
    · simp only [List.mem_singleton] at he
      subst he
      rfl
    · simp at he

theorem sendStops_count (s : CPState) (hinv : CPInv s) (i : Nat)
    (hmix : ¬(s.textBlockStarted = true ∧ s.encounteredToolCall = true)) :
    countP (isStopAt i) (sendContentBlockStops s) = startCount s i := by
  cases henc : s.encounteredToolCall with
  | false =>
    have htools : s.toolCallAccumulators = [] := hinv.2 henc
    have hlk : lookupTool s.toolCallAccumulators i = none := by
      rw [htools]
      rfl
    simp only [sendContentBlockStops, henc, Bool.false_eq_true, if_false, startCount, hlk,
      Option.isSome_none]
    cases hts : s.textBlockStarted <;> by_cases hi : i = 0 <;>
      simp [hts, hi, countP, isStopAt, List.filter_cons] <;> omega
  | true =>
    have hts : s.textBlockStarted = false := by
      cases h : s.textBlockStarted with
      | false => rfl
      | true => exact absurd ⟨h, henc⟩ hmix
    simp only [sendContentBlockStops, henc, if_pos trivial, startCount, hts,
      Bool.false_eq_true, false_and, if_false, Nat.zero_add]
    exact stopsCount_toolKeys i s.toolCallAccumulators hinv.1

/-- Claim C2, counterexample: when a text fragment and a tool-call
fragment with block index 0 occur in the same request, index 0 receives
*two* `content_block_start` events (the text block and the tool-use block
are guarded by independent flags) and only one `content_block_stop`. -/
theorem claim2_counterexample :
    countP (isStartAt 0) (requestBlockEvents
        [⟨none, some "hi".toList, none⟩,
         ⟨some [⟨0, "a".toList, ⟨"f".toList, none⟩⟩], none, none⟩]) = 2 ∧
    countP (isStopAt 0) (requestBlockEvents
        [⟨none, some "hi".toList, none⟩,
         ⟨some [⟨0, "a".toList, ⟨"f".toList, none⟩⟩], none, none⟩]) = 1 := by
  constructor <;> rfl

/-- Claim C2, amended: in every request in which the shared text block and
tool-call blocks are not both opened (i.e. excluding the mixed
text-plus-tool-call case of the counterexample), every block index
receives at most one `content_block_start`, and for every index the
number of `content_block_start` events equals the number of
`content_block_stop` events over the whole request (deltas followed by
finalization): each opened index is started exactly once and stopped
exactly once, and no unopened index receives either. -/
theorem claim2_startStopPairing (ds : List Delta) (i : Nat)
    (hmix : ¬((runDeltas freshCP ds).1.textBlockStarted = true ∧
              (runDeltas freshCP ds).1.encounteredToolCall = true)) :
    countP (isStartAt i) (requestBlockEvents ds) ≤ 1 ∧
    countP (isStartAt i) (requestBlockEvents ds)
      = countP (isStopAt i) (requestBlockEvents ds) := by
  have hfresh : CPInv freshCP := ⟨by simp [toolKeysSorted, freshCP], fun _ => rfl⟩
  obtain ⟨hinv, heq, hz⟩ := runDeltas_inv ds freshCP i hfresh
  have hsc0 : startCount freshCP i = 0 := by
    simp [startCount, freshCP, lookupTool]
  rw [hsc0, Nat.add_zero] at heq
  have hreq : requestBlockEvents ds
      = (runDeltas freshCP ds).2 ++ sendContentBlockStops (runDeltas freshCP ds).1 := by
    simp [requestBlockEvents]
  have hstarts : countP (isStartAt i) (requestBlockEvents ds)
      = startCount (runDeltas freshCP ds).1 i := by
    rw [hreq, countP_append, sendStops_no_starts, Nat.add_zero, heq]
  have hstops : countP (isStopAt i) (requestBlockEvents ds)
      = startCount (runDeltas freshCP ds).1 i := by
    rw [hreq, countP_append, hz, Nat.zero_add]
    exact sendStops_count _ hinv i hmix
  refine ⟨?_, hstarts.trans hstops.symm⟩
  rw [hstarts]
  cases henc : (runDeltas freshCP ds).1.encounteredToolCall with
  | false =>
    have htools := hinv.2 henc
    have hlk : lookupTool (runDeltas freshCP ds).1.toolCallAccumulators i = none := by
      rw [htools]
      rfl
    simp only [startCount, hlk, Option.isSome_none, Bool.false_eq_true, if_false]
    split <;> omega
  | true =>
    have hts : (runDeltas freshCP ds).1.textBlockStarted = false := by
      cases h : (runDeltas freshCP ds).1.textBlockStarted with
      | false => rfl
      | true => exact absurd ⟨h, henc⟩ hmix
    simp only [startCount, hts, Bool.false_eq_true, false_and, if_false, Nat.zero_add]
    split <;> omega

/-- Claim C2, witness: a pure text request opens and closes index 0
exactly once. -/
theorem claim2_witness :
    countP (isStartAt 0) (requestBlockEvents [⟨none, some "hi".toList, none⟩]) ≤ 1 ∧
    countP (isStartAt 0) (requestBlockEvents [⟨none, some "hi".toList, none⟩])
      = countP (isStopAt 0) (requestBlockEvents [⟨none, some "hi".toList, none⟩]) :=
  claim2_startStopPairing [⟨none, some "hi".toList, none⟩] 0 (by decide)

/-! ## Claim C6 -/

theorem sendStops_noFinal (s : CPState) :
    countMessageStop (sendContentBlockStops s) = 0 ∧
    countTransportEnd (sendContentBlockStops s) = 0 := by
  constructor <;>
    · refine countP_eq_zero _ _ (fun e he => ?_)
      simp only [sendContentBlockStops] at he
      split at he
      · obtain ⟨kv, _, rfl⟩ := List.mem_map.mp he
        rfl
      · split at he
        · simp only [List.mem_singleton] at he
          subst he
          rfl
        · simp at he

theorem processDelta_noFinal (s : CPState) (d : Option Delta) :
    countMessageStop (processDelta s d).2 = 0 ∧
    countTransportEnd (processDelta s d).2 = 0 := by
  cases d with
  | none => exact ⟨rfl, rfl⟩
  | some d =>
    obtain ⟨tcF, c, r⟩ := d
    cases tcF with
    | some tcs =>
      have hall := (runToolCalls_textUntouched tcs s).2.2.2
      constructor <;>
        · refine countP_eq_zero _ _ (fun e he => ?_)
          have := hall e he
          cases e <;> simp_all [isToolEv, isMessageStopEv, isTransportEndEv]
    | none =>
      cases c with
      | some cstr =>
        cases cstr with
        | nil =>
          cases r with
          | some rstr =>
            cases rstr with
            | nil => exact ⟨rfl, rfl⟩
            | cons r0 rs =>
              constructor <;>
                · refine countP_eq_zero _ _ (fun e he => ?_)
                  have hpd : (processDelta s (some ⟨none, some [], some (r0 :: rs)⟩)).2
                      = (processReasoning s (r0 :: rs)).2 := by simp [processDelta]
                  rw [hpd, processReasoning_evs] at he
                  rcases List.mem_append.mp he with he | he
                  · revert he
                    split <;> intro he <;> simp_all [isMessageStopEv, isTransportEndEv]
                  · simp only [List.mem_singleton] at he
                    subst he
                    rfl
          | none => exact ⟨rfl, rfl⟩
        | cons c0 cs =>
          constructor <;>
            · refine countP_eq_zero _ _ (fun e he => ?_)
              have hpd : (processDelta s (some ⟨none, some (c0 :: cs), r⟩)).2
                  = (processContent s (c0 :: cs)).2 := rfl
              rw [hpd, processContent_evs] at he
              rcases List.mem_append.mp he with he | he
              · revert he
                split <;> intro he <;> simp_all [isMessageStopEv, isTransportEndEv]
              · simp only [List.mem_singleton] at he
                subst he
                rfl
      | none =>
        cases r with
        | some rstr =>
          cases rstr with
          | nil => exact ⟨rfl, rfl⟩
          | cons r0 rs =>
            constructor <;>
              · refine countP_eq_zero _ _ (fun e he => ?_)
                have hpd : (processDelta s (some ⟨none, none, some (r0 :: rs)⟩)).2
                    = (processReasoning s (r0 :: rs)).2 := rfl
                rw [hpd, processReasoning_evs] at he
                rcases List.mem_append.mp he with he | he
                · revert he
                  split <;> intro he <;> simp_all [isMessageStopEv, isTransportEndEv]
                · simp only [List.mem_singleton] at he
                  subst he
                  rfl
        | none => exact ⟨rfl, rfl⟩

theorem initializeStream_facts (h : HState) :
    countMessageStop (initializeStream h).2 = 0 ∧
    countTransportEnd (initializeStream h).2 = 0 ∧
    ((initializeStream h).1.stateManager.state = h.stateManager.state ∨
     (initializeStream h).1.stateManager.state = StreamingState.streaming) := by
  simp only [initializeStream, SMState.startStreaming]
  by_cases hs : h.stateManager.isSucceeded = true <;>
    simp [hs, countMessageStop, countTransportEnd, countP, isMessageStopEv,
      isTransportEndEv, List.filter_cons]

theorem processStreamData_facts (h : HState) (p : ParsedPayload)
    (hnc : h.stateManager.state ≠ StreamingState.completed) :
    countMessageStop (processStreamData h p).evs = 0 ∧
    countTransportEnd (processStreamData h p).evs = 0 ∧
    (processStreamData h p).h.stateManager.state ≠ StreamingState.completed := by
  obtain ⟨hi1, hi2, hi3⟩ := initializeStream_facts h
  obtain ⟨hd1, hd2⟩ := processDelta_noFinal (initializeStream h).1.contentProcessor
    ((p.choices.bind List.head?).bind Choice.delta)
  cases hp : p.error with
  | some e =>
    refine ⟨?_, ?_, ?_⟩ <;>
      simp [processStreamData, hp, SMState.setError, countMessageStop,
        countTransportEnd, countP]
  | none =>
    have hevs : (processStreamData h p).evs
        = (initializeStream h).2
          ++ (processDelta (match p.usage with
                | some u => { (initializeStream h).1 with usage := some u }
                | none => (initializeStream h).1).contentProcessor
              ((p.choices.bind List.head?).bind Choice.delta)).2 := by
      simp only [processStreamData, hp]
      try (cases p.usage <;> rfl)
    have hsm : (processStreamData h p).h.stateManager
        = (initializeStream h).1.stateManager := by
      simp only [processStreamData, hp]
      try (cases p.usage <;> rfl)
    have hcp : ∀ (u : Option Usage),
        (match u with
          | some w => { (initializeStream h).1 with usage := some w }
          | none => (initializeStream h).1).contentProcessor
        = (initializeStream h).1.contentProcessor := by
      intro u
      cases u <;> rfl
    refine ⟨?_, ?_, ?_⟩
    · rw [hevs, hcp p.usage, countMessageStop, countP_append]
      rw [countMessageStop] at hi1
      rw [countMessageStop] at hd1
      rw [hi1, hd1]
    · rw [hevs, hcp p.usage, countTransportEnd, countP_append]
      rw [countTransportEnd] at hi2
      rw [countTransportEnd] at hd2
      rw [hi2, hd2]
    · rw [hsm]
      rcases hi3 with h3 | h3
      · rw [h3]
        exact hnc
      · rw [h3]
        intro hcontra
        exact StreamingState.noConfusion hcontra

theorem finalizeStream_facts (h : HState) :
    (finalizeStream h).1.stateManager.state = StreamingState.completed ∧
    countMessageStop (finalizeStream h).2 = 1 ∧
    countTransportEnd (finalizeStream h).2 = 1 := by
  obtain ⟨hs1, hs2⟩ := sendStops_noFinal h.contentProcessor
  refine ⟨rfl, ?_, ?_⟩
  · simp only [finalizeStream, countMessageStop, countP_append]
    rw [countMessageStop] at hs1
    rw [hs1]
    rfl
  · simp only [finalizeStream, countTransportEnd, countP_append]
    rw [countTransportEnd] at hs2
    rw [hs2]
    rfl

/-- One `processDataEntry` step either finalizes (sentinel payload: state
`Completed`, exactly one `message_stop`, one transport close, no error,
`shouldContinue = false`) or emits neither a `message_stop` nor a
transport close and does not reach `Completed`. -/
theorem processDataEntry_cases (parse : Str → Except Str ParsedPayload)
    (oracle : Nat → Bool) (h : HState) (n : Nat) (entry : Str)
    (hnc : h.stateManager.state ≠ StreamingState.completed) :
    ((processDataEntry parse oracle h n entry).h.stateManager.state
        = StreamingState.completed ∧
     countMessageStop (processDataEntry parse oracle h n entry).evs = 1 ∧
     countTransportEnd (processDataEntry parse oracle h n entry).evs = 1 ∧
     (processDataEntry parse oracle h n entry).err = none ∧
     (processDataEntry parse oracle h n entry).cont = false)
    ∨ ((processDataEntry parse oracle h n entry).h.stateManager.state
        ≠ StreamingState.completed ∧
       countMessageStop (processDataEntry parse oracle h n entry).evs = 0 ∧
       countTransportEnd (processDataEntry parse oracle h n entry).evs = 0) := by
  obtain ⟨f1, f2, f3⟩ := finalizeStream_facts h
  simp only [processDataEntry]
  split
  · exact Or.inr ⟨hnc, rfl, rfl⟩
  · split
    · exact Or.inl ⟨f1, f2, f3, rfl, rfl⟩
    · split
      · exact Or.inr ⟨by simp [SMState.setError], rfl, rfl⟩
      · split
        · split
          · exact Or.inr ⟨by simp [SMState.setError], rfl, rfl⟩
          · split
            · rename_i p hp
              obtain ⟨s1, s2, s3⟩ := processStreamData_facts
                { h with bufferManager :=
                    { h.bufferManager with
                      jsonBuffer := h.bufferManager.jsonBuffer
                        ++ ((trimStr entry).drop 5).dropWhile jsWS } } p hnc
              split
              · exact Or.inr ⟨by simp [SMState.setError], s1, s2⟩
              · exact Or.inr ⟨s3, s1, s2⟩
              · exact Or.inr ⟨s3, s1, s2⟩
            · exact Or.inr ⟨by simp [SMState.setError], rfl, rfl⟩
        · split
          · rename_i p hp
            obtain ⟨s1, s2, s3⟩ := processStreamData_facts h p hnc
            exact Or.inr ⟨s3, s1, s2⟩
          · split
            · exact Or.inr ⟨hnc, rfl, rfl⟩
            · exact Or.inr ⟨by simp [SMState.setError], rfl, rfl⟩

/-- The per-entry dichotomy lifted over a list of data entries. -/
theorem processEntries_cases (parse : Str → Except Str ParsedPayload)
    (oracle : Nat → Bool) :
    ∀ (entries : List Str) (h : HState) (n : Nat),
      h.stateManager.state ≠ StreamingState.completed →
      ((processEntries parse oracle h n entries).h.stateManager.state
          = StreamingState.completed ∧
       countMessageStop (processEntries parse oracle h n entries).evs = 1 ∧
       countTransportEnd (processEntries parse oracle h n entries).evs = 1 ∧
       (processEntries parse oracle h n entries).err = none ∧
       (processEntries parse oracle h n entries).cont = false)
      ∨ ((processEntries parse oracle h n entries).h.stateManager.state
          ≠ StreamingState.completed ∧
         countMessageStop (processEntries parse oracle h n entries).evs = 0 ∧
         countTransportEnd (processEntries parse oracle h n entries).evs = 0) := by
  intro entries
  induction entries with
  | nil =>
    intro h n hnc
    exact Or.inr ⟨hnc, rfl, rfl⟩
  | cons e es ih =>
    intro h n hnc
    have hstep := processDataEntry_cases parse oracle h n e hnc
    simp only [processEntries]
    rcases hstep with ⟨a1, a2, a3, a4, a5⟩ | ⟨b1, b2, b3⟩
    · rw [a4, a5]
      exact Or.inl ⟨a1, a2, a3, rfl, rfl⟩
    · cases herr : (processDataEntry parse oracle h n e).err with
      | some err => exact Or.inr ⟨b1, b2, b3⟩
      | none =>
        cases hcont : (processDataEntry parse oracle h n e).cont with
        | false => exact Or.inr ⟨b1, b2, b3⟩
        | true =>
          rw [if_pos rfl]
          dsimp only
          have hrec := ih (processDataEntry parse oracle h n e).h
            (processDataEntry parse oracle h n e).n b1
          rcases hrec with ⟨c1, c2, c3, c4, c5⟩ | ⟨d1, d2, d3⟩
          · refine Or.inl ⟨c1, ?_, ?_, c4, c5⟩
            · rw [countMessageStop, countP_append]
              rw [countMessageStop] at b2 c2
              rw [b2, c2]
            · rw [countTransportEnd, countP_append]
              rw [countTransportEnd] at b3 c3
              rw [b3, c3]
          · refine Or.inr ⟨d1, ?_, ?_⟩
            · rw [countMessageStop, countP_append]
              rw [countMessageStop] at b2 d2
              rw [b2, d2]
            · rw [countTransportEnd, countP_append]
              rw [countTransportEnd] at b3 d3
              rw [b3, d3]

/-- The dichotomy for one whole line. -/
theorem processLine_cases (parse : Str → Except Str ParsedPayload)
    (oracle : Nat → Bool) (h : HState) (n : Nat) (line : Str)
    (hnc : h.stateManager.state ≠ StreamingState.completed) :
    ((processLine parse oracle h n line).h.stateManager.state
        = StreamingState.completed ∧
     countMessageStop (processLine parse oracle h n line).evs = 1 ∧
     countTransportEnd (processLine parse oracle h n line).evs = 1 ∧
     (processLine parse oracle h n line).err = none ∧
     (processLine parse oracle h n line).cont = false)
    ∨ ((processLine parse oracle h n line).h.stateManager.state
        ≠ StreamingState.completed ∧
       countMessageStop (processLine parse oracle h n line).evs = 0 ∧
       countTransportEnd (processLine parse oracle h n line).evs = 0) := by
  simp only [processLine]
  split
  · exact Or.inr ⟨hnc, rfl, rfl⟩
  · split
    · exact Or.inr ⟨hnc, rfl, rfl⟩
    · exact processEntries_cases parse oracle _ h n hnc

/-- The dichotomy for the per-chunk line loop. -/
theorem processLines_cases (parse : Str → Except Str ParsedPayload)
    (oracle : Nat → Bool) :
    ∀ (lines : List Str) (h : HState) (n : Nat),
      h.stateManager.state ≠ StreamingState.completed →
      ((processLines parse oracle h n lines).h.stateManager.state
          = StreamingState.completed ∧
       countMessageStop (processLines parse oracle h n lines).evs = 1 ∧
       countTransportEnd (processLines parse oracle h n lines).evs = 1 ∧
       (processLines parse oracle h n lines).err = none ∧
       (processLines parse oracle h n lines).cont = false)
      ∨ ((processLines parse oracle h n lines).h.stateManager.state
          ≠ StreamingState.completed ∧
         countMessageStop (processLines parse oracle h n lines).evs = 0 ∧
         countTransportEnd (processLines parse oracle h n lines).evs = 0) := by
  intro lines
  induction lines with
  | nil =>
    intro h n hnc
    exact Or.inr ⟨hnc, rfl, rfl⟩
  | cons l ls ih =>
    intro h n hnc
    have hstep := processLine_cases parse oracle h n l hnc
    simp only [processLines]
    rcases hstep with ⟨a1, a2, a3, a4, a5⟩ | ⟨b1, b2, b3⟩
    · rw [a4, a5]
      exact Or.inl ⟨a1, a2, a3, rfl, rfl⟩
    · cases herr : (processLine parse oracle h n l).err with
      | some err => exact Or.inr ⟨b1, b2, b3⟩
      | none =>
        cases hcont : (processLine parse oracle h n l).cont with
        | false => exact Or.inr ⟨b1, b2, b3⟩
        | true =>
          rw [if_pos rfl]
          dsimp only
          have hrec := ih (processLine parse oracle h n l).h
            (processLine parse oracle h n l).n b1
          rcases hrec with ⟨c1, c2, c3, c4, c5⟩ | ⟨d1, d2, d3⟩
          · refine Or.inl ⟨c1, ?_, ?_, c4, c5⟩
            · rw [countMessageStop, countP_append]
              rw [countMessageStop] at b2 c2
              rw [b2, c2]
            · rw [countTransportEnd, countP_append]
              rw [countTransportEnd] at b3 c3
              rw [b3, c3]
          · refine Or.inr ⟨d1, ?_, ?_⟩
            · rw [countMessageStop, countP_append]
              rw [countMessageStop] at b2 d2
              rw [b2, d2]
            · rw [countTransportEnd, countP_append]
              rw [countTransportEnd] at b3 d3
              rw [b3, d3]

/-- The dichotomy for the chunk-reading loop. -/
theorem loopChunks_cases (parse : Str → Except Str ParsedPayload)
    (oracle : Nat → Bool) :
    ∀ (chunks : List Str) (h : HState) (n : Nat),
      h.stateManager.state ≠ StreamingState.completed →
      ((loopChunks parse oracle h n chunks).h.stateManager.state
          = StreamingState.completed ∧
       countMessageStop (loopChunks parse oracle h n chunks).evs = 1 ∧
       countTransportEnd (loopChunks parse oracle h n chunks).evs = 1 ∧
       (loopChunks parse oracle h n chunks).err = none ∧
       (loopChunks parse oracle h n chunks).cont = false)
      ∨ ((loopChunks parse oracle h n chunks).h.stateManager.state
          ≠ StreamingState.completed ∧
         countMessageStop (loopChunks parse oracle h n chunks).evs = 0 ∧
         countTransportEnd (loopChunks parse oracle h n chunks).evs = 0) := by
  intro chunks
  induction chunks with
  | nil =>
    intro h n hnc
    exact Or.inr ⟨hnc, rfl, rfl⟩
  | cons c cs ih =>
    intro h n hnc
    simp only [loopChunks]
    rw [if_neg hnc]
    have hstep := processLines_cases parse oracle
      ((h.bufferManager.extractCompleteLines c).2)
      { h with bufferManager := (h.bufferManager.extractCompleteLines c).1 } n hnc
    rcases hstep with ⟨a1, a2, a3, a4, a5⟩ | ⟨b1, b2, b3⟩
    · rw [a4, a5]
      exact Or.inl ⟨a1, a2, a3, rfl, rfl⟩
    · cases herr : (processLines parse oracle
          { h with bufferManager := (h.bufferManager.extractCompleteLines c).1 } n
          (h.bufferManager.extractCompleteLines c).2).err with
      | some err => exact Or.inr ⟨b1, b2, b3⟩
      | none =>
        cases hcont : (processLines parse oracle
            { h with bufferManager := (h.bufferManager.extractCompleteLines c).1 } n
            (h.bufferManager.extractCompleteLines c).2).cont with
        | false => exact Or.inr ⟨b1, b2, b3⟩
        | true =>
          rw [if_pos rfl]
          dsimp only
          have hrec := ih
            (processLines parse oracle
              { h with bufferManager := (h.bufferManager.extractCompleteLines c).1 } n
              (h.bufferManager.extractCompleteLines c).2).h
            (processLines parse oracle
              { h with bufferManager := (h.bufferManager.extractCompleteLines c).1 } n
              (h.bufferManager.extractCompleteLines c).2).n b1
          rcases hrec with ⟨c1, c2, c3, c4, c5⟩ | ⟨d1, d2, d3⟩
          · refine Or.inl ⟨c1, ?_, ?_, c4, c5⟩
            · rw [countMessageStop, countP_append]
              rw [countMessageStop] at b2 c2
              rw [b2, c2]
            · rw [countTransportEnd, countP_append]
              rw [countTransportEnd] at b3 c3
              rw [b3, c3]
          · refine Or.inr ⟨d1, ?_, ?_⟩
            · rw [countMessageStop, countP_append]
              rw [countMessageStop] at b2 d2
              rw [b2, d2]
            · rw [countTransportEnd, countP_append]
              rw [countTransportEnd] at b3 d3
              rw [b3, d3]

/-- Claim C6, counterexample: a stream carrying a second `[DONE]` payload
in the final partial line triggers finalization twice — two `message_stop`
frames and two transport closes — because the residual line buffer is
re-processed after the loop ends and `finalizeStream` is unguarded. -/
theorem claim6_counterexample :
    countMessageStop (runStreaming parseMalformed oracleNever
        ["data: [DONE]\ndata: [DONE]".toList]).evs = 2 ∧
    countTransportEnd (runStreaming parseMalformed oracleNever
        ["data: [DONE]\ndata: [DONE]".toList]).evs = 2 := by
  constructor <;> rfl

/-- Claim C6, amended: for every request (any chunk sequence, any
`JSON.parse` behaviour, any buffer-timeout behaviour — so including a
sentinel that arrives while JSON-recovery buffering is active), provided
the residual line buffer left after the reading loop completes the stream
contains no further `data:` entries, if a `[DONE]` payload was processed
(at least one `message_stop` was emitted) then exactly one `message_stop`
is emitted and the transport is closed exactly once; in particular the
orchestrator does not close the transport a second time after the state
machine has reached `Completed`. -/
theorem claim6_sentinelOnce (parse : Str → Except Str ParsedPayload)
    (oracle : Nat → Bool) (chunks : List Str)
    (hres : (loopChunks parse oracle freshHandler 0 chunks).h.stateManager.state
        = StreamingState.completed →
      splitDataEntries (trimStr
        (loopChunks parse oracle freshHandler 0 chunks).h.bufferManager.lineBuffer) = []) :
    0 < countMessageStop (runStreaming parse oracle chunks).evs →
    countMessageStop (runStreaming parse oracle chunks).evs = 1 ∧
    countTransportEnd (runStreaming parse oracle chunks).evs = 1 := by
  have hfresh : freshHandler.stateManager.state ≠ StreamingState.completed := by
    intro hcontra
    exact StreamingState.noConfusion hcontra
  have hL := loopChunks_cases parse oracle chunks freshHandler 0 hfresh
  simp only [runStreaming, BMState.getRemainingLineBuffer]
  rcases hL with ⟨a1, a2, a3, a4, a5⟩ | ⟨b1, b2, b3⟩
  · rw [a4]
    dsimp only
    by_cases hrm : trimStr
        (loopChunks parse oracle freshHandler 0 chunks).h.bufferManager.lineBuffer = []
    · rw [if_pos hrm]
      dsimp only
      rw [if_pos a1]
      intro _
      constructor
      · rw [countMessageStop, countP_append]
        rw [countMessageStop] at a2
        rw [a2]
        rfl
      · rw [countTransportEnd, countP_append]
        rw [countTransportEnd] at a3
        rw [a3]
        rfl
    · rw [if_neg hrm]
      have hpl : processLine parse oracle
          { (loopChunks parse oracle freshHandler 0 chunks).h with
            bufferManager :=
              { (loopChunks parse oracle freshHandler 0 chunks).h.bufferManager with
                lineBuffer := [] } }
          (loopChunks parse oracle freshHandler 0 chunks).n
          (loopChunks parse oracle freshHandler 0 chunks).h.bufferManager.lineBuffer
          = ⟨{ (loopChunks parse oracle freshHandler 0 chunks).h with
               bufferManager :=
                 { (loopChunks parse oracle freshHandler 0 chunks).h.bufferManager with
                   lineBuffer := [] } }, [],
             (loopChunks parse oracle freshHandler 0 chunks).n, true, none⟩ := by
        simp only [processLine]
        rw [if_neg hrm, hres a1]
        rw [if_pos rfl]
      rw [hpl]
      dsimp only
      rw [if_pos a1]
      intro _
      constructor
      · rw [countMessageStop, countP_append]
        rw [countMessageStop] at a2
        rw [a2]
        rfl
      · rw [countTransportEnd, countP_append]
        rw [countTransportEnd] at a3
        rw [a3]
        rfl
  · cases herr : (loopChunks parse oracle freshHandler 0 chunks).err with
    | some e =>
      dsimp only
      intro h0
      rw [b2] at h0
      exact absurd h0 (Nat.lt_irrefl 0)
    | none =>
      dsimp only
      by_cases hrm : trimStr
          (loopChunks parse oracle freshHandler 0 chunks).h.bufferManager.lineBuffer = []
      · rw [if_pos hrm]
        dsimp only
        rw [if_neg b1]
        intro h0
        exfalso
        rw [countMessageStop, countP_append, countP_append] at h0
        rw [countMessageStop] at b2
        rw [b2] at h0
        simp [countP, isMessageStopEv, List.filter_cons] at h0
      · rw [if_neg hrm]
        have hstep := processLine_cases parse oracle
          { (loopChunks parse oracle freshHandler 0 chunks).h with
            bufferManager :=
              { (loopChunks parse oracle freshHandler 0 chunks).h.bufferManager with
                lineBuffer := [] } }
          (loopChunks parse oracle freshHandler 0 chunks).n
          (loopChunks parse oracle freshHandler 0 chunks).h.bufferManager.lineBuffer b1
        rcases hstep with ⟨c1, c2, c3, c4, c5⟩ | ⟨d1, d2, d3⟩
        · rw [c4]
          dsimp only
          rw [if_pos c1]
          intro _
          constructor
          · rw [countMessageStop, countP_append]
            rw [countMessageStop] at b2 c2
            rw [b2, c2]
          · rw [countTransportEnd, countP_append]
            rw [countTransportEnd] at b3 c3
            rw [b3, c3]
        · cases herr2 : (processLine parse oracle
              { (loopChunks parse oracle freshHandler 0 chunks).h with
                bufferManager :=
                  { (loopChunks parse oracle freshHandler 0 chunks).h.bufferManager with
                    lineBuffer := [] } }
              (loopChunks parse oracle freshHandler 0 chunks).n
              (loopChunks parse oracle freshHandler 0 chunks).h.bufferManager.lineBuffer).err
            with
          | some e =>
            dsimp only
            intro h0
            exfalso
            rw [countMessageStop, countP_append] at h0
            rw [countMessageStop] at b2 d2
            rw [b2, d2] at h0
            exact absurd h0 (Nat.lt_irrefl 0)
          | none =>
            dsimp only
            rw [if_neg d1]
            intro h0
            exfalso
            rw [countMessageStop, countP_append, countP_append] at h0
            rw [countMessageStop] at b2 d2
            rw [b2, d2] at h0
            simp [countP, isMessageStopEv, List.filter_cons] at h0

/-- Claim C6, witness: the protocol-conforming stream whose sentinel is
the final, newline-terminated payload emits exactly one `message_stop`
and closes the transport exactly once. -/
theorem claim6_witness :
    countMessageStop (runStreaming parseMalformed oracleNever
        ["data: [DONE]\n".toList]).evs = 1 ∧
    countTransportEnd (runStreaming parseMalformed oracleNever
        ["data: [DONE]\n".toList]).evs = 1 :=
  claim6_sentinelOnce parseMalformed oracleNever ["data: [DONE]\n".toList]
    (fun _ => by decide) (by decide)

end Proxy

